import Mathlib

/-!
Verification of the document-processing core of a RAG ingestion pipeline
(`src/document_processor.py`, `src/utility_bill_processor.py`).

Python strings are modelled as `List Char`, token sequences (the output of the
external `tiktoken` encoder) as `List Nat`.  The tokenizer itself is a
third-party library and is passed around as an abstract encode/decode pair,
as are the PDF/OCR extraction backends (external library calls).  Python's
`\w` and `\s` regex classes and `str.lower` are modelled on their ASCII
fragment (plus the non-breaking space for `\s`); every string the repository
manipulates in the properties below is ASCII.
-/

/-- Python `\s` / `str.split()` / `str.strip()` whitespace, ASCII fragment
plus the non-breaking space U+00A0. -/
def pyIsSpace (c : Char) : Bool :=
  c = ' ' || c = '\t' || c = '\n' || c = '\r' || c = '\x0b' || c = '\x0c' || c = '\xa0'

/-- Python regex `\w` (word character), ASCII fragment: alphanumerics and underscore. -/
def wordChar (c : Char) : Bool :=
  c.isAlphanum || c = '_'

/-- Python `str.lower`, ASCII fragment. -/
def lowerList (l : List Char) : List Char :=
  l.map Char.toLower

/-- Python `pat in hay` substring containment on strings. -/
def hasSub (hay pat : List Char) : Bool :=
  match hay with
  | [] => pat.isEmpty
  | _ :: rest => pat.isPrefixOf hay || hasSub rest pat

/-- The fixed vocabulary of `DocumentProcessor._is_utility_bill`
(document_processor.py lines 524-528). -/
def utilityIndicators : List (List Char) :=
  [("pge").toList, ("pg&e").toList, ("pacific gas").toList, ("electric").toList,
   ("bill").toList, ("utility").toList, ("energy").toList, ("gas").toList,
   ("edison").toList, ("sdge").toList, ("peco").toList, ("con ed").toList]

/-- `DocumentProcessor._is_utility_bill` (document_processor.py lines 521-529):
lowercase the filename and test membership of any fixed indicator substring. -/
def isUtilityBill (filename : List Char) : Bool :=
  let filename_lower := lowerList filename
  utilityIndicators.any (fun indicator => hasSub filename_lower indicator)

/-- The `DocumentProcessor` constructor state (document_processor.py lines 16-20):
`__init__` stores `chunk_size`, `chunk_overlap` and `use_ocr` without any
validation.  The tiktoken encoding handle is external and not part of the state. -/
structure DocumentProcessor where
  chunk_size : Nat
  chunk_overlap : Nat
  use_ocr : Bool

/-- `DocumentProcessor.__init__`: plain field assignment, no precondition check. -/
def DocumentProcessor.init (chunk_size chunk_overlap : Nat) (use_ocr : Bool) :
    DocumentProcessor :=
  ⟨chunk_size, chunk_overlap, use_ocr⟩

/-- The `while start < len(tokens)` loop of `DocumentProcessor._split_text`
(document_processor.py lines 505-519), on the token sequence.  Each iteration
takes the window `tokens[start : start + chunk_size]`, stops ("break") when the
window reaches the end, and otherwise advances `start` by
`chunk_size - chunk_overlap`.  Fuel makes the possibly diverging loop total:
`none` means the fuel ran out, which (as proved below) happens for every fuel
exactly when the Python loop diverges.  Python's `start` may go negative when
`chunk_overlap > chunk_size` (natural subtraction stalls at the same value
instead); in both semantics the loop guard `start < len(tokens)` and the break
condition `end >= len(tokens)` have the same truth values in every iteration, so
the `none` verdict is faithful. -/
def splitLoop (cs co : Nat) (toks : List Nat) : Nat → Nat → Option (List (List Nat))
  | 0, _ => none
  | fuel + 1, start =>
    if start < toks.length then
      let window := (toks.drop start).take cs
      if toks.length ≤ start + cs then
        some [window]
      else
        match splitLoop cs co toks fuel (start + (cs - co)) with
        | some rest => some (window :: rest)
        | none => none
    else
      some []

/-- `DocumentProcessor._split_text` (document_processor.py lines 497-519) at the
token level: at most `chunk_size` tokens yield the single chunk `[tokens]`,
otherwise the sliding-window loop runs (with fuel `len + 1`, proved sufficient
whenever `chunk_overlap < chunk_size`). -/
def splitText (cs co : Nat) (toks : List Nat) : Option (List (List Nat)) :=
  if toks.length ≤ cs then some [toks]
  else splitLoop cs co toks (toks.length + 1) 0

/-- Overlap-adjusted concatenation: keep the first window whole and drop the
first `co` tokens of every later window (the reconstruction reading of the
spec's total-coverage property). -/
def overlapJoin (co : Nat) : List (List Nat) → List Nat
  | [] => []
  | w :: rest => w ++ (rest.map (fun r => r.drop co)).flatten

/-- Python `str.strip()`: drop leading and trailing whitespace. -/
def pyStrip (l : List Char) : List Char :=
  ((l.dropWhile pyIsSpace).reverse.dropWhile pyIsSpace).reverse

/-- Worker for `re.sub(r'\s+', ' ', text)`: the flag records whether the
previous character was whitespace (so a run is emitted as one space). -/
def collapseAux : Bool → List Char → List Char
  | _, [] => []
  | prevWs, c :: rest =>
    if pyIsSpace c then
      if prevWs then collapseAux true rest else ' ' :: collapseAux true rest
    else
      c :: collapseAux false rest

/-- `re.sub(r'\s+', ' ', text)`: every maximal whitespace run becomes one space. -/
def collapseWs (l : List Char) : List Char :=
  collapseAux false l

/-- The explicitly allowed punctuation of the `_clean_text` character filter
regex `[^\w\s\.\,\!\?\;\:\-\(\)\|\n\$\@\#\%\&\*\+\=\/\\]`
(document_processor.py line 379). -/
def allowedPunct : List Char :=
  ['.', ',', '!', '?', ';', ':', '-', '(', ')', '|', '\n',
   '$', '@', '#', '%', '&', '*', '+', '=', '/', '\\']

/-- A character survives the `_clean_text` filter iff it is a word character,
whitespace, or listed punctuation. -/
def allowedChar (c : Char) : Bool :=
  wordChar c || pyIsSpace c || allowedPunct.contains c

/-- The character-filter step of `_clean_text` (document_processor.py line 379). -/
def filterAllowed (l : List Char) : List Char :=
  l.filter allowedChar

/-- The `replacements` dict of `_clean_text` (document_processor.py lines
388-397) in insertion order after Python dict key deduplication.  Inspecting
the source bytes: the quote, bullet and space entries map a plain ASCII
character (or the bullet) to itself, so only the minus sign, en dash and em
dash entries change anything. -/
def replacementPairs : List (Char × Char) :=
  [('\'', '\''), ('"', '"'), ('•', '•'), (' ', ' '),
   ('−', '-'), ('–', '-'), ('—', '-')]

/-- The `for old, new in replacements.items(): text = text.replace(old, new)`
loop of `_clean_text` (document_processor.py lines 399-400); every pair is a
single-character replacement, i.e. a character map. -/
def applyReplacements (l : List Char) : List Char :=
  replacementPairs.foldl (fun acc p => acc.map (fun c => if c = p.1 then p.2 else c)) l

/-- Index of the last `'\n'` of a list, if any. -/
def lastNewlineIdx (l : List Char) : Option Nat :=
  match l.reverse.findIdx? (fun c => c = '\n') with
  | some i => some (l.length - 1 - i)
  | none => none

/-- Fueled worker for `re.sub(r'\n\s*\n', '\n\n', text)`; every step consumes
at least one character, so fuel `l.length` never runs out (structural fuel
recursion keeps the definition kernel-reducible). -/
def subBlankF : Nat → List Char → List Char
  | 0, _ => []
  | _ + 1, [] => []
  | fuel + 1, c :: rest =>
    if c = '\n' then
      match lastNewlineIdx (rest.takeWhile pyIsSpace) with
      | some k => '\n' :: '\n' :: subBlankF fuel (rest.drop (k + 1))
      | none => c :: subBlankF fuel rest
    else
      c :: subBlankF fuel rest

/-- `re.sub(r'\n\s*\n', '\n\n', text)` (document_processor.py line 403).  At a
`'\n'`, the greedy `\s*` plus backtracking matches up to the last `'\n'` of the
following whitespace run; the whole match is replaced by `"\n\n"` and scanning
resumes after it. -/
def subBlank (l : List Char) : List Char :=
  subBlankF l.length l

/-- Fueled worker for `re.sub(r' {3,}', '   ', text)`; fuel `l.length` never
runs out. -/
def subSpacesF : Nat → List Char → List Char
  | 0, _ => []
  | _ + 1, [] => []
  | fuel + 1, c :: rest =>
    if c = ' ' then
      if 2 ≤ (rest.takeWhile (fun d => d = ' ')).length then
        ' ' :: ' ' :: ' ' :: subSpacesF fuel (rest.drop (rest.takeWhile (fun d => d = ' ')).length)
      else
        c :: subSpacesF fuel rest
    else
      c :: subSpacesF fuel rest

/-- `re.sub(r' {3,}', '   ', text)` (document_processor.py line 404): every
maximal run of three or more plain spaces becomes exactly three spaces. -/
def subSpaces (l : List Char) : List Char :=
  subSpacesF l.length l

/-- `DocumentProcessor._clean_text` (document_processor.py lines 373-406):
strip + collapse whitespace, drop disallowed characters, run the replacement
pairs, collapse blank lines, cap space runs at three. -/
def cleanText (text : List Char) : List Char :=
  subSpaces (subBlank (applyReplacements (filterAllowed (collapseWs (pyStrip text)))))

/-- `' '.join(text.split())` (document_processor.py line 252): whitespace-token
split dropping empties, re-joined with single spaces. -/
def joinTokens (l : List Char) : List Char :=
  List.intercalate [' '] ((l.splitOnP pyIsSpace).filter (fun t => !t.isEmpty))

/-- One match attempt of `\b\d*X\d*\b` (for `X` = `O` or `l`) at the head of
`l`, assuming a word boundary before `l` (checked by the caller): greedy
digits, the letter, greedy digits, then a closing word boundary.  Returns the
match with the letter replaced (the `lambda m: m.group().replace(...)` of
document_processor.py lines 265-266) and the rest of the input. -/
def tryMatchDigitWord (t r : Char) (l : List Char) : Option (List Char × List Char) :=
  let ds1 := l.takeWhile Char.isDigit
  match l.dropWhile Char.isDigit with
  | x :: l2 =>
    if x = t then
      let ds2 := l2.takeWhile Char.isDigit
      let l3 := l2.dropWhile Char.isDigit
      if (match l3 with | [] => true | d :: _ => !wordChar d) then
        some (ds1 ++ r :: ds2, l3)
      else
        none
    else
      none
  | [] => none

/-- Fueled worker of the `re.sub` scan for `\b\d*X\d*\b` over the whole cell
(document_processor.py lines 265-266): left-to-right, non-overlapping; the
flag records whether the previous character was a word character (giving the
opening `\b` test).  After a match the scan resumes right after it (the last
matched character is a word character, so the flag becomes `true`).  Every
step consumes at least one character, so fuel `l.length` never runs out. -/
def subDigitWordF (t r : Char) : Nat → Bool → List Char → List Char
  | 0, _, _ => []
  | _ + 1, _, [] => []
  | fuel + 1, prevW, c :: rest =>
    if prevW then
      c :: subDigitWordF t r fuel (wordChar c) rest
    else
      match tryMatchDigitWord t r (c :: rest) with
      | some er => er.1 ++ subDigitWordF t r fuel true er.2
      | none => c :: subDigitWordF t r fuel (wordChar c) rest

/-- The `re.sub` scan for `\b\d*X\d*\b` (document_processor.py lines 265-266). -/
def subDigitWord (t r : Char) (prevW : Bool) (l : List Char) : List Char :=
  subDigitWordF t r l.length prevW l

/-- `DocumentProcessor._clean_cell_text` (document_processor.py lines 246-268):
collapse whitespace, and if the collapsed cell contains any digit, run the
`O -> 0` substitution and then the `l -> 1` substitution.  (The `replacements`
dict of lines 255-259, including its `S -> 5` entry, is never used by the
code.) -/
def cleanCellText (text : List Char) : List Char :=
  let collapsed := joinTokens text
  if collapsed.any Char.isDigit then
    subDigitWord ('l') ('1') false (subDigitWord ('O') ('0') false collapsed)
  else
    collapsed

/-- `DocumentProcessor._extract_pdf` (document_processor.py lines 61-114),
body of the `try` block.  The three extraction backends (OCR, pdfplumber,
PyMuPDF) are external library calls modelled as `Except`-valued inputs: `.ok`
is the text a backend returned, `.error` means it raised.  `_clean_text` and
`_is_utility_bill` are pure and cannot raise.  The control flow mirrors the
source: utility bill + OCR enabled tries OCR first and accepts when the raw
stripped OCR text exceeds 50 characters; then pdfplumber with its
200-character acceptance; then PyMuPDF if strictly longer; then last-resort
OCR for non-bill documents with poor results; the winner is normalized. -/
def extractPdfBody (use_ocr : Bool) (filename : List Char)
    (ocr plumber pymupdf : Except Unit (List Char)) : Except Unit (List Char) := do
  if isUtilityBill filename && use_ocr then
    let ocr_text ← ocr
    if 50 < (pyStrip ocr_text).length then
      return cleanText ocr_text
  let text ← plumber
  if 200 < (pyStrip text).length then
    return cleanText text
  let pymupdf_text ← pymupdf
  let text1 := if (pyStrip text).length < (pyStrip pymupdf_text).length then pymupdf_text else text
  if (pyStrip text1).length < 100 && use_ocr && !(isUtilityBill filename) then
    let ocr_text ← ocr
    let text2 := if (pyStrip text1).length < (pyStrip ocr_text).length then ocr_text else text1
    return cleanText text2
  else
    return cleanText text1

/-- `DocumentProcessor._extract_pdf` with its surrounding
`try ... except: return ""` (document_processor.py lines 64 and 112-114). -/
def extractPdfCaught (use_ocr : Bool) (filename : List Char)
    (ocr plumber pymupdf : Except Unit (List Char)) : List Char :=
  match extractPdfBody use_ocr filename ocr plumber pymupdf with
  | .ok s => s
  | .error _ => []

/-- `DocumentProcessor._extract_pdf` with its `try ... except` viewed from the
caller: the result is again `Except`-valued so that "never raises" is a
statement, not a typing accident — the theorem below proves the result is
always `.ok`. -/
def extractPdfTry (use_ocr : Bool) (filename : List Char)
    (ocr plumber pymupdf : Except Unit (List Char)) : Except Unit (List Char) :=
  match extractPdfBody use_ocr filename ocr plumber pymupdf with
  | .ok s => .ok s
  | .error _ => .ok []

/-- `DocumentProcessor._extract_pdf` when no backend raises (all inputs are
plain strings). -/
def extractPdf (use_ocr : Bool) (filename ocr plumber pymupdf : List Char) : List Char :=
  extractPdfCaught use_ocr filename (.ok ocr) (.ok plumber) (.ok pymupdf)

/-- The keep test of `DocumentProcessor.load_documents` (document_processor.py
line 46): a document is kept iff `content and len(content.strip()) > 0`. -/
def loadKeeps (content : List Char) : Bool :=
  !content.isEmpty && 0 < (pyStrip content).length

/-- One element of pdfplumber's `page.chars`: vertical position `top`
(distance from the top of the page, so visually higher lines have smaller
`top`), horizontal position `x0`, and the character's text. -/
structure PChar where
  top : ℚ
  x0 : ℚ
  text : List Char

/-- Python `round(q)` to an integer: round half to even (banker's rounding). -/
def bankersRound (q : ℚ) : Int :=
  let f : Int := Rat.floor q
  let r : ℚ := q - f
  if r < 1 / 2 then f
  else if 1 / 2 < r then f + 1
  else if Even f then f else f + 1

/-- Python `round(q, 1)` (document_processor.py line 311), on exact rationals:
round to one decimal place, half to even. -/
def roundTenths (q : ℚ) : ℚ :=
  (bankersRound (q * 10) : ℚ) / 10

/-- Ascending insertion into a sorted list of rationals. -/
def insertLeQ (a : ℚ) : List ℚ → List ℚ
  | [] => [a]
  | b :: l => if a ≤ b then a :: b :: l else b :: insertLeQ a l

/-- Ascending insertion sort (Python `sorted` on distinct keys). -/
def sortQ (l : List ℚ) : List ℚ :=
  l.foldr insertLeQ []

/-- Stable insertion by `x0` (an element is placed before the first existing
element with a key not smaller than its own, matching Python's stable
`sorted(..., key=lambda c: c['x0'])`). -/
def insertByX0 (a : PChar) : List PChar → List PChar
  | [] => [a]
  | b :: l => if a.x0 ≤ b.x0 then a :: b :: l else b :: insertByX0 a l

/-- Stable sort of one line's characters by `x0` (document_processor.py
line 319). -/
def sortByX0 (l : List PChar) : List PChar :=
  l.foldr insertByX0 []

/-- `DocumentProcessor._extract_from_chars` (document_processor.py lines
303-324): group characters into lines by `round(top, 1)` (dict keys; the
grouping within a key keeps input order, the model recovers each group by an
order-preserving filter and the key set by `dedup`, sorting making the key
order irrelevant), visit the keys in `sorted(keys, reverse=True)` order
(descending `top`), sort each line by `x0`, join the texts, and keep the
stripped line when non-blank; lines are joined with newlines. -/
def extractFromChars (chars : List PChar) : List Char :=
  if chars.isEmpty then []
  else
    let keys := (chars.map (fun c => roundTenths c.top)).dedup
    let text_lines :=
      ((sortQ keys).reverse.map (fun y =>
        pyStrip (((sortByX0 (chars.filter (fun c => decide (roundTenths c.top = y)))).map
          (fun c => c.text)).flatten))).filter (fun t => !t.isEmpty)
    List.intercalate ['\n'] text_lines

/-- Generic `re.findall` scan: try the matcher at each position left to right;
on a match, record its value and resume right after the matched span
(non-overlapping matches; all patterns below match at least one character, the
`max 1` only guards the recursion).  The matcher receives the previous
character so boundary-sensitive patterns can test the opening `\b`. -/
def scanAllF {A : Type} (m : Option Char → List Char → Option (A × Nat)) :
    Nat → Option Char → List Char → List A
  | 0, _, _ => []
  | _ + 1, _, [] => []
  | fuel + 1, prev, c :: rest =>
    match m prev (c :: rest) with
    | some ak =>
      ak.1 :: scanAllF m fuel (((c :: rest).take (max 1 ak.2)).getLast?)
        ((c :: rest).drop (max 1 ak.2))
    | none => scanAllF m fuel (some c) rest

/-- Wrapper of the findall scan with fuel `l.length` (each step consumes at
least one character, so the fuel never runs out and the definition is
kernel-reducible). -/
def scanAll {A : Type} (m : Option Char → List Char → Option (A × Nat))
    (prev : Option Char) (l : List Char) : List A :=
  scanAllF m l.length prev l

/-- One match of `\$\s*\d+[.,]\d{2}` (the amount pattern of
`DocumentProcessor._extract_bill_info`, document_processor.py line 451) at the
head of the input: returns the matched text and its length. -/
def matchAmountDP (l : List Char) : Option (List Char × Nat) :=
  match l with
  | '$' :: l1 =>
    let sp := l1.takeWhile pyIsSpace
    let l2 := l1.dropWhile pyIsSpace
    let ds := l2.takeWhile Char.isDigit
    if ds.isEmpty then none
    else
      match l2.drop ds.length with
      | sep :: a :: b :: _ =>
        if (sep = '.' || sep = ',') && a.isDigit && b.isDigit then
          some ('$' :: (sp ++ ds ++ sep :: [a, b]), 1 + sp.length + ds.length + 3)
        else none
      | _ => none
  | _ => none

/-- One attempt of `\d{1,2}[/.-]\d{1,2}[/.-]\d{4}` with fixed widths `k1`, `k2`
for the two short fields. -/
def tryDateKK (l : List Char) (k1 k2 : Nat) : Option (List Char × Nat) :=
  let d1 := l.take k1
  if d1.length = k1 && d1.all Char.isDigit then
    match l.drop k1 with
    | s1 :: l2 =>
      if s1 = '/' || s1 = '.' || s1 = '-' then
        let d2 := l2.take k2
        if d2.length = k2 && d2.all Char.isDigit then
          match l2.drop k2 with
          | s2 :: l3 =>
            if s2 = '/' || s2 = '.' || s2 = '-' then
              let y := l3.take 4
              if y.length = 4 && y.all Char.isDigit then
                some (d1 ++ s1 :: (d2 ++ s2 :: y), k1 + 1 + k2 + 1 + 4)
              else none
            else none
          | [] => none
        else none
      else none
    | [] => none
  else none

/-- `\d{1,2}[/.-]\d{1,2}[/.-]\d{4}` without boundary checks, greedy widths
first (a digit can never equal a separator, so at most one width combination
can succeed). -/
def matchDateCore (l : List Char) : Option (List Char × Nat) :=
  tryDateKK l 2 2 <|> tryDateKK l 2 1 <|> tryDateKK l 1 2 <|> tryDateKK l 1 1

/-- One match of `\b\d{1,2}[/.-]\d{1,2}[/.-]\d{4}\b` (the date pattern of
`_extract_bill_info`, document_processor.py line 458): the core pattern plus
the word boundaries on both sides (the previous character and the character
after the match must not be word characters). -/
def matchDate (prev : Option Char) (l : List Char) : Option (List Char × Nat) :=
  if (match prev with | none => true | some p => !wordChar p) then
    match matchDateCore l with
    | some sk =>
      if (match l.drop sk.2 with | [] => true | d :: _ => !wordChar d) then some sk
      else none
    | none => none
  else none

/-- The unit alternation `(?:kWh|kwh|KWH|therm|Therm|THERM)` under
`re.IGNORECASE` (document_processor.py line 465): the casing variants collapse,
leaving a case-insensitive match of `kwh` or `therm`. -/
def matchUnit (l : List Char) : Option (List Char × Nat) :=
  if lowerList (l.take 3) = ("kwh").toList then some (l.take 3, 3)
  else if lowerList (l.take 5) = ("therm").toList then some (l.take 5, 5)
  else none

/-- The `\d*\s*(?:kWh|...)` tail of the energy pattern: greedy digits, greedy
whitespace, then the unit (no shorter greedy choice can help, as the unit
starts with a letter). -/
def matchEnergyTail (l : List Char) : Option (List Char × Nat) :=
  let ds2 := l.takeWhile Char.isDigit
  let l1 := l.drop ds2.length
  let sp := l1.takeWhile pyIsSpace
  let l2 := l1.drop sp.length
  match matchUnit l2 with
  | some uk => some (ds2 ++ sp ++ uk.1, ds2.length + sp.length + uk.2)
  | none => none

/-- One match of `\d+[.,]?\d*\s*(?:kWh|kwh|KWH|therm|Therm|THERM)` (the energy
pattern of `_extract_bill_info`, document_processor.py line 465, with
`re.IGNORECASE`): leading digits, then the optional separator branch is tried
greedily before the branch without it. -/
def matchEnergy (l : List Char) : Option (List Char × Nat) :=
  let ds := l.takeWhile Char.isDigit
  if ds.isEmpty then none
  else
    let l1 := l.drop ds.length
    (match l1 with
     | sep :: l2 =>
       if sep = '.' || sep = ',' then
         (matchEnergyTail l2).map (fun sk => (ds ++ sep :: sk.1, ds.length + 1 + sk.2))
       else none
     | [] => none)
    <|>
    (matchEnergyTail l1).map (fun sk => (ds ++ sk.1, ds.length + sk.2))

/-- First keyword of the alternation that is a prefix of the input, with its
length (regex alternation order). -/
def matchKeyword (kws : List (List Char)) (l : List Char) : Option Nat :=
  match kws.find? (fun kw => kw.isPrefixOf l) with
  | some kw => some kw.length
  | none => none

/-- The lazy `[\s\w]*?(\d{8,})` tail of the account pattern
(document_processor.py line 472): at each position first try `\d{8,}` (greedy,
so the whole digit run, needing at least 8), otherwise consume one whitespace
or word character and continue; any other character fails the match. -/
def lazyFindDigits : List Char → Nat → Option (List Char × Nat)
  | l, walked =>
    let run := l.takeWhile Char.isDigit
    if 8 ≤ run.length then some (run, walked + run.length)
    else
      match l with
      | c :: rest =>
        if pyIsSpace c || wordChar c then lazyFindDigits rest (walked + 1) else none
      | [] => none

/-- One match of `(?:Account|account|ACCOUNT)[\s\w]*?(\d{8,})`
(document_processor.py line 472); `re.findall` returns the captured digit
group. -/
def matchAccount (l : List Char) : Option (List Char × Nat) :=
  match matchKeyword [("Account").toList, ("account").toList, ("ACCOUNT").toList] l with
  | some kl =>
    match lazyFindDigits (l.drop kl) 0 with
    | some dk => some (dk.1, kl + dk.2)
    | none => none
  | none => none

/-- The lazy `[\s\w]*?(date)` tail of the service-period pattern
(document_processor.py line 479): at each position try the date core first,
otherwise consume one whitespace or word character. -/
def lazyFindDate : List Char → Nat → Option (List Char × Nat)
  | l, walked =>
    match matchDateCore l with
    | some dk => some (dk.1, walked + dk.2)
    | none =>
      match l with
      | c :: rest =>
        if pyIsSpace c || wordChar c then lazyFindDate rest (walked + 1) else none
      | [] => none

/-- One match of
`(?:Service|service|SERVICE|Period|period|PERIOD)[\s\w]*?(\d{1,2}[/.-]\d{1,2}[/.-]\d{4})`
(document_processor.py line 479); `re.findall` returns the captured date. -/
def matchPeriod (l : List Char) : Option (List Char × Nat) :=
  match matchKeyword [("Service").toList, ("service").toList, ("SERVICE").toList,
      ("Period").toList, ("period").toList, ("PERIOD").toList] l with
  | some kl =>
    match lazyFindDate (l.drop kl) 0 with
    | some dk => some (dk.1, kl + dk.2)
    | none => none
  | none => none

/-- The lazy `[\s\w]*?\$\s*\d+[.,]\d{2}` tail of the bill-total pattern
(document_processor.py line 486), accumulating the walked characters because
`re.findall` returns the whole match here (no capture group). -/
def lazyFindAmount : List Char → List Char → Option (List Char × Nat)
  | l, acc =>
    match matchAmountDP l with
    | some ak => some (acc.reverse ++ ak.1, acc.length + ak.2)
    | none =>
      match l with
      | c :: rest =>
        if pyIsSpace c || wordChar c then lazyFindAmount rest (c :: acc) else none
      | [] => none

/-- One match of
`(?:Total|total|TOTAL|Amount|amount|AMOUNT)[\s\w]*?\$\s*\d+[.,]\d{2}`
(document_processor.py line 486), returning the whole matched text. -/
def matchTotal (l : List Char) : Option (List Char × Nat) :=
  match matchKeyword [("Total").toList, ("total").toList, ("TOTAL").toList,
      ("Amount").toList, ("amount").toList, ("AMOUNT").toList] l with
  | some kl =>
    match lazyFindAmount (l.drop kl) [] with
    | some sk => some (l.take kl ++ sk.1, kl + sk.2)
    | none => none
  | none => none

/-- `re.findall(r'\$\s*\d+[.,]\d{2}', text)` (document_processor.py line 451). -/
def findAmountsDP (text : List Char) : List (List Char) :=
  scanAll (fun _ l => matchAmountDP l) none text

/-- `re.findall(r'\b\d{1,2}[/.-]\d{1,2}[/.-]\d{4}\b', text)`
(document_processor.py line 458). -/
def findDates (text : List Char) : List (List Char) :=
  scanAll matchDate none text

/-- `re.findall` of the energy pattern (document_processor.py line 465). -/
def findEnergy (text : List Char) : List (List Char) :=
  scanAll (fun _ l => matchEnergy l) none text

/-- `re.findall` of the account pattern (document_processor.py line 472). -/
def findAccounts (text : List Char) : List (List Char) :=
  scanAll (fun _ l => matchAccount l) none text

/-- `re.findall` of the service-period pattern (document_processor.py line 479). -/
def findPeriods (text : List Char) : List (List Char) :=
  scanAll (fun _ l => matchPeriod l) none text

/-- `re.findall` of the bill-total pattern (document_processor.py line 486). -/
def findTotals (text : List Char) : List (List Char) :=
  scanAll (fun _ l => matchTotal l) none text

/-- `DocumentProcessor._extract_bill_info` (document_processor.py lines
444-495): run the six `findall`s, render each non-empty family as a header
line plus two-space-indented entries, and prepend the banner when anything was
found.  Python iterates `set(...)`, whose order is unspecified
(hash-randomized); the model uses `List.dedup`, which preserves the same set
of entries — no property proved below depends on the entry order. -/
def extractBillInfo (text : List Char) : List Char :=
  let dollar_amounts := findAmountsDP text
  let dates := findDates text
  let energy_usage := findEnergy text
  let account_matches := findAccounts text
  let period_matches := findPeriods text
  let total_matches := findTotals text
  let indent := fun (a : List Char) => ' ' :: ' ' :: a
  let sec1 := if dollar_amounts.isEmpty then []
    else ("AMOUNTS FOUND:").toList :: dollar_amounts.dedup.map indent
  let sec2 := if dates.isEmpty then []
    else ("\nDATES FOUND:").toList :: dates.dedup.map indent
  let sec3 := if energy_usage.isEmpty then []
    else ("\nENERGY USAGE:").toList :: energy_usage.dedup.map indent
  let sec4 := if account_matches.isEmpty then []
    else ("\nACCOUNT NUMBERS:").toList :: account_matches.dedup.map indent
  let sec5 := if period_matches.isEmpty then []
    else ("\nSERVICE PERIODS:").toList :: period_matches.dedup.map indent
  let sec6 := if total_matches.isEmpty then []
    else ("\nBILL TOTALS:").toList :: total_matches.dedup.map indent
  let structured_info := sec1 ++ sec2 ++ sec3 ++ sec4 ++ sec5 ++ sec6
  if structured_info.isEmpty then []
  else ("=== EXTRACTED UTILITY BILL INFORMATION ===\n").toList
    ++ List.intercalate ['\n'] structured_info

/-- The `(?:,\d{3})*\.\d{2}` tail of the UtilityBillProcessor amount pattern
(utility_bill_processor.py line 20): greedily consume `,ddd` groups, then
`.dd`; returns the consumed length.  Backtracking out of the greedy group
repetition can never help a failed `\.` (every earlier retry position starts
with `,`), so the greedy-with-backtracking regex semantics reduces to this
direct scan. -/
def matchUBTail : List Char → Option Nat
  | ',' :: d1 :: d2 :: d3 :: rest =>
    if d1.isDigit && d2.isDigit && d3.isDigit then
      (matchUBTail rest).map (fun k => k + 4)
    else none
  | '.' :: a :: b :: _ =>
    if a.isDigit && b.isDigit then some 3 else none
  | _ => none

/-- One attempt of the UB amount pattern with exactly `k` leading digits. -/
def tryUBDigits (l2 : List Char) (k : Nat) : Option (List Char × Nat) :=
  let ds := l2.take k
  if ds.length = k && ds.all Char.isDigit then
    match matchUBTail (l2.drop k) with
    | some tk => some (ds ++ (l2.drop k).take tk, k + tk)
    | none => none
  else none

/-- One match of `\$\s*\d{1,3}(?:,\d{3})*\.\d{2}` (the `amounts` pattern of
`UtilityBillProcessor`, utility_bill_processor.py line 20): `\d{1,3}` is
greedy, so widths 3, 2, 1 are tried in that order. -/
def matchAmountUB (l : List Char) : Option (List Char × Nat) :=
  match l with
  | '$' :: l1 =>
    let sp := l1.takeWhile pyIsSpace
    let l2 := l1.dropWhile pyIsSpace
    match tryUBDigits l2 3 <|> tryUBDigits l2 2 <|> tryUBDigits l2 1 with
    | some sk => some ('$' :: (sp ++ sk.1), 1 + sp.length + sk.2)
    | none => none
  | _ => none

/-- `re.findall` of the UB amount pattern (utility_bill_processor.py line 160). -/
def findAmountsUB (text : List Char) : List (List Char) :=
  scanAll (fun _ l => matchAmountUB l) none text

/-- Value of a digit string. -/
def digitsToNat (l : List Char) : Nat :=
  l.foldl (fun acc c => acc * 10 + (c.toNat - 48)) 0

/-- The `float(amount_str.replace('$', '').replace(',', ''))` parse of
`UtilityBillProcessor._is_reasonable_bill_amount` (utility_bill_processor.py
line 205), in exact cents.  Every string the pattern produces has the shape
`$ spaces digits . dd`; after removing `$` and `,` and stripping whitespace it
is `digits.dd`, whose float value rounds to a double less than 5e-12 away from
the exact rational, so the comparisons against 10.0 and 2000.0 (both exactly
representable, and at least 0.01 away from any non-boundary two-decimal value)
decide exactly as the exact cents comparisons do. -/
def parseAmountCents (s : List Char) : Option Nat :=
  let t := pyStrip (s.filter (fun c => !(c = '$' || c = ',')))
  let ds := t.takeWhile Char.isDigit
  match t.drop ds.length with
  | '.' :: a :: b :: [] =>
    if !ds.isEmpty && a.isDigit && b.isDigit then
      some (digitsToNat ds * 100 + (a.toNat - 48) * 10 + (b.toNat - 48))
    else none
  | _ => none

/-- `UtilityBillProcessor._is_reasonable_bill_amount` (utility_bill_processor.py
lines 201-209): parse the amount and test `10.0 <= amount <= 2000.0`
(in cents: `1000 <= cents <= 200000`); a failed parse (caught exception)
yields `False`. -/
def isReasonableBillAmount (s : List Char) : Bool :=
  match parseAmountCents s with
  | some cents => decide (1000 ≤ cents) && decide (cents ≤ 200000)
  | none => false

/-- The amount-filtering step of `UtilityBillProcessor._extract_bill_info`
(utility_bill_processor.py lines 160-164): the deduplicated pattern matches
that pass `_is_reasonable_bill_amount` — exactly the strings listed in the
`AMOUNTS:` line of the structured report. -/
def ubReasonableAmounts (text : List Char) : List (List Char) :=
  (findAmountsUB text).dedup.filter isReasonableBillAmount

/-- The chunk `type` field (document_processor.py lines 426 and 439). -/
inductive ChunkType where
  | structured_bill_info : ChunkType
  | text_chunk : ChunkType
deriving DecidableEq

/-- A loaded document as built by `load_documents` (document_processor.py
lines 47-51). -/
structure RawDocument where
  content : List Char
  source : List Char
  filename : List Char

/-- A chunk record as built by `chunk_documents` (document_processor.py lines
420-427 and 433-440). -/
structure Chunk where
  content : List Char
  source : List Char
  filename : List Char
  chunk_id : Nat
  total_chunks : Nat
  type : ChunkType
deriving DecidableEq

/-- `DocumentProcessor._split_text` on text (document_processor.py lines
497-519): encode with the external tokenizer, split the token sequence, decode
each window.  `enc`/`dec` model the injected tiktoken encoder. -/
def splitTextStr (cs co : Nat) (enc : List Char → List Nat) (dec : List Nat → List Char)
    (text : List Char) : Option (List (List Char)) :=
  let tokens := enc text
  if tokens.length ≤ cs then some [text]
  else (splitLoop cs co tokens (tokens.length + 1) 0).map (fun ws => ws.map dec)

/-- The per-document body of `DocumentProcessor.chunk_documents`
(document_processor.py lines 412-440): a document whose lowercased filename
contains `pge` or `bill` first gets the structured-info chunk (when the report
is non-empty) with `chunk_id 0` and `total_chunks 1`; all regular chunks
follow, with an offset of 1 applied to `chunk_id` and `total_chunks` exactly
when the filename contains `pge` (lines 437-438 test only `pge`). -/
def chunkDoc (cs co : Nat) (enc : List Char → List Nat) (dec : List Nat → List Char)
    (doc : RawDocument) : Option (List Chunk) :=
  let fnl := lowerList doc.filename
  let billNamed := hasSub fnl (("pge").toList) || hasSub fnl (("bill").toList)
  let pgeOffset := if hasSub fnl (("pge").toList) then 1 else 0
  let structuredChunks : List Chunk :=
    if billNamed then
      let si := extractBillInfo doc.content
      if !si.isEmpty then
        [{ content := si, source := doc.source, filename := doc.filename,
           chunk_id := 0, total_chunks := 1, type := ChunkType.structured_bill_info }]
      else []
    else []
  match splitTextStr cs co enc dec doc.content with
  | some doc_chunks =>
    some (structuredChunks ++ doc_chunks.mapIdx (fun i c =>
      { content := c, source := doc.source, filename := doc.filename,
        chunk_id := i + pgeOffset, total_chunks := doc_chunks.length + pgeOffset,
        type := ChunkType.text_chunk }))
  | none => none

/-- `DocumentProcessor.chunk_documents` (document_processor.py lines 408-442):
the per-document chunk blocks concatenated in document order. -/
def chunkDocuments (cs co : Nat) (enc : List Char → List Nat) (dec : List Nat → List Char) :
    List RawDocument → Option (List Chunk)
  | [] => some []
  | d :: ds => do
    let a ← chunkDoc cs co enc dec d
    let b ← chunkDocuments cs co enc dec ds
    pure (a ++ b)

/-- A concrete stand-in tokenizer for closed evaluations: one token per
character. -/
def charEnc (l : List Char) : List Nat :=
  l.map Char.toNat

/-- Decoder of the stand-in tokenizer. -/
def charDec (l : List Nat) : List Char :=
  l.map Char.ofNat

/-- A maximal word-character run that the pattern `\b\d*X\d*\b` matches whole:
all characters are digits except exactly one occurrence of the letter `t`. -/
def isPatternRun (t : Char) (run : List Char) : Bool :=
  run.all (fun c => c.isDigit || c = t) && run.count t = 1

/-- Per-run action of the substitution: a pattern run has its single letter
replaced, any other run is kept. -/
def rewriteRun (t r : Char) (run : List Char) : List Char :=
  if isPatternRun t run then run.map (fun x => if x = t then r else x) else run

/-- Declarative form of the cell substitution, against which the scan is
verified below: split the cell into maximal word-character runs and the
characters between them, and apply `rewriteRun` to each run. -/
def runMapSubF (t r : Char) : Nat → List Char → List Char
  | 0, _ => []
  | _ + 1, [] => []
  | fuel + 1, c :: rest =>
    if wordChar c then
      rewriteRun t r ((c :: rest).takeWhile wordChar) ++
        runMapSubF t r fuel ((c :: rest).dropWhile wordChar)
    else
      c :: runMapSubF t r fuel rest

/-- Wrapper of `runMapSubF` with sufficient fuel. -/
def runMapSub (t r : Char) (l : List Char) : List Char :=
  runMapSubF t r l.length l

theorem hasSub_iff_infix (hay pat : List Char) : hasSub hay pat = true ↔ pat <:+: hay := by
  induction hay with
  | nil =>
    simp only [hasSub, List.isEmpty_iff]
    constructor
    · rintro rfl; exact List.infix_rfl
    · intro h; exact List.eq_nil_of_infix_nil h
  | cons c rest ih =>
    simp [hasSub, List.infix_cons_iff, List.isPrefixOf_iff_prefix, ih]

/-- C5 (counterexample): the lowercased filename `con_ed_statement.pdf` contains
none of the twelve indicators — in particular not `con ed`, whose space does
not match the underscore — so the classifier returns `false`, not `true` as
the claim's third example states. -/
theorem is_utility_bill_con_ed_false :
    isUtilityBill (("Con_Ed_Statement.pdf").toList) = false := by
  decide

/-- C5 (amended): `isUtilityBill` returns true iff the lowercased filename
contains one of the twelve fixed indicator substrings; the first two spec
examples hold, but `isUtilityBill("Con_Ed_Statement.pdf")` is `false` (the
underscore does not match the space of `con ed`). -/
theorem is_utility_bill_characterization (filename : List Char) :
    (isUtilityBill filename = true ↔
      ∃ ind ∈ utilityIndicators, ind <:+: lowerList filename) ∧
    isUtilityBill (("pge-may-2025.pdf").toList) = true ∧
    isUtilityBill (("normal-document.pdf").toList) = false ∧
    isUtilityBill (("Con_Ed_Statement.pdf").toList) = false := by
  refine ⟨?_, by decide, by decide, by decide⟩
  simp [isUtilityBill, List.any_eq_true, hasSub_iff_infix]

theorem splitLoop_spec (cs co : Nat) (hco : co < cs) (toks : List Nat) :
    ∀ fuel start, start < toks.length → toks.length ≤ start + fuel →
      ∃ ws, splitLoop cs co toks fuel start = some ws ∧ ws ≠ [] ∧
        (∀ i, (hi : i < ws.length) →
          ws.get ⟨i, hi⟩ = (toks.drop (start + i * (cs - co))).take cs) ∧
        overlapJoin co ws = toks.drop start := by
  intro fuel
  induction fuel with
  | zero => intro start h1 h2; omega
  | succ fuel ih =>
    intro start h1 h2
    by_cases hend : toks.length ≤ start + cs
    · refine ⟨[(toks.drop start).take cs], ?_, by simp, ?_, ?_⟩
      · simp [splitLoop, h1, hend]
      · intro i hi
        have hi0 : i = 0 := by simpa using hi
        subst hi0
        simp
      · simp only [overlapJoin, List.map_nil, List.flatten_nil, List.append_nil]
        exact List.take_of_length_le (by simp [List.length_drop]; omega)
    · have h1' : start + (cs - co) < toks.length := by omega
      have h2' : toks.length ≤ start + (cs - co) + fuel := by omega
      obtain ⟨ws', hw1, hw2, hw3, hw4⟩ := ih (start + (cs - co)) h1' h2'
      refine ⟨(toks.drop start).take cs :: ws', ?_, by simp, ?_, ?_⟩
      · simp [splitLoop, h1, hend, hw1]
      · intro i hi
        cases i with
        | zero => simp
        | succ n =>
          have hn : n < ws'.length := by simpa using hi
          rw [List.get_cons_succ, hw3 n hn]
          congr 2
          ring
      · obtain ⟨w0, rest', rfl⟩ : ∃ w0 rest', ws' = w0 :: rest' := by
          cases ws' with
          | nil => exact absurd rfl hw2
          | cons a b => exact ⟨a, b, rfl⟩
        have hw0 : w0 = (toks.drop (start + (cs - co))).take cs := by
          simpa using hw3 0 (by simp)
        have hlenw0 : co ≤ w0.length := by
          rw [hw0]
          simp only [List.length_take, List.length_drop]
          omega
        have hIH : w0 ++ ((rest'.map (fun r => r.drop co)).flatten) =
            toks.drop (start + (cs - co)) := hw4
        have hdropped : w0.drop co ++ ((rest'.map (fun r => r.drop co)).flatten) =
            toks.drop (start + cs) := by
          have := congrArg (List.drop co) hIH
          rw [List.drop_append_eq_append_drop] at this
          rw [Nat.sub_eq_zero_of_le hlenw0, List.drop_zero] at this
          rw [this, List.drop_drop]
          congr 1
          omega
        show (toks.drop start).take cs ++
          (w0.drop co :: rest'.map (fun r => r.drop co)).flatten = toks.drop start
        rw [List.flatten_cons, hdropped]
        have : toks.drop (start + cs) = (toks.drop start).drop cs := by
          rw [List.drop_drop]
        rw [this, List.take_append_drop]

/-- C2: for `chunk_overlap < chunk_size`, a text of at most `chunk_size` tokens
is returned whole as a single chunk, and a longer text is split into windows
`tokens[i*(chunk_size-chunk_overlap) : ...][:chunk_size]` — each starting at
the next multiple of `chunk_size - chunk_overlap` and covering
`min(chunk_size, remaining)` tokens — such that keeping the first window and
dropping the first `chunk_overlap` tokens of every later window reconstructs
the token sequence exactly (total coverage, no gaps). -/
theorem split_text_coverage (cs co : Nat) (toks : List Nat) (h : co < cs) :
    (toks.length ≤ cs → splitText cs co toks = some [toks]) ∧
    (cs < toks.length → ∃ ws, splitText cs co toks = some ws ∧ ws ≠ [] ∧
      (∀ i, (hi : i < ws.length) →
        ws.get ⟨i, hi⟩ = (toks.drop (i * (cs - co))).take cs) ∧
      overlapJoin co ws = toks) := by
  constructor
  · intro hl
    simp [splitText, hl]
  · intro hl
    obtain ⟨ws, h1, h2, h3, h4⟩ :=
      splitLoop_spec cs co h toks (toks.length + 1) 0 (by omega) (by omega)
    refine ⟨ws, ?_, h2, ?_, ?_⟩
    · simpa [splitText, Nat.not_le.mpr hl] using h1
    · intro i hi
      simpa using h3 i hi
    · simpa using h4

/-- C2 (witness): at `chunk_size 3`, `chunk_overlap 1` and the five-token text
`[0,1,2,3,4]`, the hypotheses hold and the theorem applies. -/
theorem split_text_coverage_witness :
    (1 < 3) ∧
    ((([0, 1, 2, 3, 4] : List Nat).length ≤ 3 →
      splitText 3 1 [0, 1, 2, 3, 4] = some [[0, 1, 2, 3, 4]]) ∧
    (3 < ([0, 1, 2, 3, 4] : List Nat).length →
      ∃ ws, splitText 3 1 [0, 1, 2, 3, 4] = some ws ∧ ws ≠ [] ∧
        (∀ i, (hi : i < ws.length) →
          ws.get ⟨i, hi⟩ = (([0, 1, 2, 3, 4] : List Nat).drop (i * (3 - 1))).take 3) ∧
        overlapJoin 1 ws = [0, 1, 2, 3, 4])) :=
  ⟨by decide, split_text_coverage 3 1 [0, 1, 2, 3, 4] (by decide)⟩

theorem splitLoop_none_of_no_advance (cs co : Nat) (toks : List Nat)
    (hco : cs ≤ co) (hlen : cs < toks.length) :
    ∀ fuel, splitLoop cs co toks fuel 0 = none := by
  intro fuel
  induction fuel with
  | zero => rfl
  | succ fuel ih =>
    have h0 : 0 < toks.length := by omega
    have hsub : cs - co = 0 := by omega
    have hnot : ¬ (toks.length ≤ 0 + cs) := by omega
    simp [splitLoop, h0, hnot, hsub, ih]
    omega

/-- C10: the constructor stores `chunk_size` and `chunk_overlap` unvalidated;
under the precondition `chunk_overlap < chunk_size` the split loop terminates
on every token sequence (the window start strictly advances), and without it —
for any text whose token count exceeds `chunk_size` — the loop never
terminates (every fuel runs out), so the precondition is necessary. -/
theorem split_text_termination (cs co : Nat) (b : Bool) (toks : List Nat) :
    ((DocumentProcessor.init cs co b).chunk_size = cs ∧
     (DocumentProcessor.init cs co b).chunk_overlap = co) ∧
    (co < cs → (splitText cs co toks).isSome = true) ∧
    (cs ≤ co → cs < toks.length →
      splitText cs co toks = none ∧ ∀ fuel, splitLoop cs co toks fuel 0 = none) := by
  refine ⟨⟨rfl, rfl⟩, ?_, ?_⟩
  · intro h
    by_cases hl : toks.length ≤ cs
    · simp [splitText, hl]
    · obtain ⟨ws, hws, -⟩ :=
        splitLoop_spec cs co h toks (toks.length + 1) 0 (by omega) (by omega)
      simp [splitText, hl, hws]
  · intro h1 h2
    have hl : ¬ toks.length ≤ cs := by omega
    exact ⟨by simp [splitText, hl, splitLoop_none_of_no_advance cs co toks h1 h2],
      splitLoop_none_of_no_advance cs co toks h1 h2⟩

/-- C10 (witness): with `chunk_size 2` the loop terminates for `chunk_overlap 1`
and diverges for `chunk_overlap 5` on a three-token text. -/
theorem split_text_termination_witness :
    ((1 < 2 → (splitText 2 1 [0, 1, 2]).isSome = true) ∧
     (2 ≤ 5 → 2 < ([0, 1, 2] : List Nat).length →
       splitText 2 5 [0, 1, 2] = none ∧ ∀ fuel, splitLoop 2 5 [0, 1, 2] fuel 0 = none)) ∧
    (splitText 2 1 [0, 1, 2]).isSome = true ∧ splitText 2 5 [0, 1, 2] = none :=
  ⟨⟨(split_text_termination 2 1 true [0, 1, 2]).2.1,
    (split_text_termination 2 5 true [0, 1, 2]).2.2⟩,
   (split_text_termination 2 1 true [0, 1, 2]).2.1 (by decide),
   ((split_text_termination 2 5 true [0, 1, 2]).2.2 (by decide) (by decide)).1⟩

/-- C6: for every combination of backend outcomes — including any backend
raising — the orchestrator entry point returns `.ok`: it never raises; when
the body raises the result is the empty string, which the `load_documents`
caller then drops (`loadKeeps` is false), treating the document as empty. -/
theorem extract_pdf_never_throws (b : Bool) (fn : List Char)
    (ocr plumber pymupdf : Except Unit (List Char)) :
    (∃ s, extractPdfTry b fn ocr plumber pymupdf = Except.ok s) ∧
    (∀ e, extractPdfBody b fn ocr plumber pymupdf = Except.error e →
      extractPdfTry b fn ocr plumber pymupdf = Except.ok [] ∧ loadKeeps [] = false) := by
  constructor
  · unfold extractPdfTry
    cases h : extractPdfBody b fn ocr plumber pymupdf with
    | ok s => exact ⟨s, rfl⟩
    | error e => exact ⟨[], rfl⟩
  · intro e he
    unfold extractPdfTry
    rw [he]
    exact ⟨rfl, by decide⟩

/-- C6 (witness): with the OCR backend raising on a bill document, the body
raises and the caught entry point returns `.ok ""`. -/
theorem extract_pdf_never_throws_witness :
    (∃ s, extractPdfTry true (("bill.pdf").toList) (Except.error ()) (Except.ok [])
      (Except.ok []) = Except.ok s) ∧
    (extractPdfTry true (("bill.pdf").toList) (Except.error ()) (Except.ok [])
      (Except.ok []) = Except.ok [] ∧ loadKeeps [] = false) :=
  ⟨(extract_pdf_never_throws true (("bill.pdf").toList) (Except.error ()) (Except.ok [])
      (Except.ok [])).1,
   (extract_pdf_never_throws true (("bill.pdf").toList) (Except.error ()) (Except.ok [])
      (Except.ok [])).2 () (by rfl)⟩

/-- C3 (counterexample): the acceptance gate tests the RAW stripped OCR text,
not the normalized one.  Sixty tildes strip to 60 > 50 characters but
normalize to the empty string (0 ≤ 50 characters), yet the orchestrator
accepts the OCR result and returns the empty normalization — whereas with an
unacceptable OCR result the same call falls through to the other strategies
and returns the non-empty pdfplumber-based text, as the claim says it should
here. -/
theorem extract_pdf_ocr_threshold_cex :
    50 < (pyStrip (List.replicate 60 '~')).length ∧
    (cleanText (List.replicate 60 '~')).length ≤ 50 ∧
    extractPdf true (("bill.pdf").toList) (List.replicate 60 '~')
      (List.replicate 60 'a') [] = [] ∧
    extractPdf true (("bill.pdf").toList) [] (List.replicate 60 'a') [] =
      cleanText (List.replicate 60 'a') ∧
    cleanText (List.replicate 60 'a') ≠ [] := by
  decide

/-- C3 (amended): for a utility-bill file with OCR enabled, the orchestrator
accepts the OCR extractor's result exactly when the raw OCR text, stripped of
leading and trailing whitespace, exceeds 50 characters (returning its
normalization); when the stripped raw text has at most 50 characters the OCR
result is discarded entirely — any two under-threshold OCR results give the
same final answer — and the other strategies decide. -/
theorem extract_pdf_ocr_acceptance (fn ocr ocr2 pl pm : List Char)
    (hb : isUtilityBill fn = true) :
    (50 < (pyStrip ocr).length → extractPdf true fn ocr pl pm = cleanText ocr) ∧
    ((pyStrip ocr).length ≤ 50 → (pyStrip ocr2).length ≤ 50 →
      extractPdf true fn ocr pl pm = extractPdf true fn ocr2 pl pm) := by
  constructor
  · intro h
    simp [extractPdf, extractPdfCaught, extractPdfBody, hb, h,
      Bind.bind, Except.bind, Pure.pure, Except.pure]
  · intro h1 h2
    have h1' : ¬ 50 < (pyStrip ocr).length := by omega
    have h2' : ¬ 50 < (pyStrip ocr2).length := by omega
    simp [extractPdf, extractPdfCaught, extractPdfBody, hb, h1', h2',
      Bind.bind, Except.bind, Pure.pure, Except.pure]

/-- C3 (witness): on `bill.pdf` a 60-character OCR result is accepted and
normalized, and two under-threshold OCR results are interchangeable. -/
theorem extract_pdf_ocr_acceptance_witness :
    (isUtilityBill (("bill.pdf").toList) = true) ∧
    (extractPdf true (("bill.pdf").toList) (List.replicate 60 'a') [] [] =
      cleanText (List.replicate 60 'a')) ∧
    (extractPdf true (("bill.pdf").toList) (List.replicate 10 'a')
        (List.replicate 30 'b') [] =
      extractPdf true (("bill.pdf").toList) (List.replicate 20 'c')
        (List.replicate 30 'b') []) :=
  ⟨by decide,
   (extract_pdf_ocr_acceptance (("bill.pdf").toList) (List.replicate 60 'a') []
     [] [] (by decide)).1 (by decide),
   (extract_pdf_ocr_acceptance (("bill.pdf").toList) (List.replicate 10 'a')
     (List.replicate 20 'c') (List.replicate 30 'b') [] (by decide)).2
     (by decide) (by decide)⟩

/-- C4 (counterexample): the bill executive-summary chunk built by the chunker
(`DocumentProcessor._extract_bill_info`) applies NO range filter: the amount
`$5.00`, whose value 5.00 is below the claimed 10.00 floor, is matched by the
chunker's amount regex and listed verbatim under `AMOUNTS FOUND:` in the
structured report. -/
theorem dp_bill_info_lists_small_amount :
    findAmountsDP (("$5.00").toList) = [("$5.00").toList] ∧
    extractBillInfo (("$5.00").toList) =
      (("=== EXTRACTED UTILITY BILL INFORMATION ===\nAMOUNTS FOUND:\n  $5.00").toList) ∧
    parseAmountCents (("$5.00").toList) = some 500 ∧
    isReasonableBillAmount (("$5.00").toList) = false := by
  decide

/-- C4 (amended): only the enhanced-OCR extractor
(`UtilityBillProcessor._extract_bill_info`) applies the `[10.00, 2000.00]`
plausibility filter: every amount it keeps parses to a value between 10.00 and
2000.00 dollars inclusive, and `_is_reasonable_bill_amount` accepts `$123.45`
while rejecting `$5.00` and `$9999.99`; the chunker's executive-summary chunk
lists its regex matches unfiltered. -/
theorem ub_amounts_in_range (text : List Char) :
    (∀ a ∈ ubReasonableAmounts text, ∃ c, parseAmountCents a = some c ∧
      1000 ≤ c ∧ c ≤ 200000) ∧
    isReasonableBillAmount (("$123.45").toList) = true ∧
    isReasonableBillAmount (("$5.00").toList) = false ∧
    isReasonableBillAmount (("$9999.99").toList) = false := by
  refine ⟨?_, by decide, by decide, by decide⟩
  intro a ha
  have h := (List.mem_filter.mp ha).2
  unfold isReasonableBillAmount at h
  rcases hp : parseAmountCents a with _ | c
  · rw [hp] at h
    simp at h
  · rw [hp] at h
    simp only [Bool.and_eq_true, decide_eq_true_eq] at h
    exact ⟨c, rfl, h.1, h.2⟩

/-- C4 (witness): `$123.45` is kept by the enhanced-OCR filter and parses to
12345 cents, inside the range. -/
theorem ub_amounts_in_range_witness :
    (("$123.45").toList) ∈ ubReasonableAmounts (("$123.45").toList) ∧
    ∃ c, parseAmountCents (("$123.45").toList) = some c ∧ 1000 ≤ c ∧ c ≤ 200000 :=
  ⟨by decide, (ub_amounts_in_range (("$123.45").toList)).1 _ (by decide)⟩

/-- C9 (code bug, failing input): two characters, one at `top = 10` (visually
higher on the page) and one at `top = 20`.  The source comment on
document_processor.py line 318 says `# Top to bottom`, and pdfplumber's `top`
grows downwards, so top-to-bottom order is ascending `top`; but
`sorted(lines.keys(), reverse=True)` visits keys in descending order, so the
function emits the bottom line `b` before the top line `a`. -/
theorem extract_from_chars_bottom_up :
    extractFromChars [⟨10, 0, ("a").toList⟩, ⟨20, 0, ("b").toList⟩] = ("b\na").toList ∧
    ("b\na").toList ≠ ("a\nb").toList := by
  constructor
  · have r10 : roundTenths 10 = 10 := by norm_num [roundTenths, bankersRound, Rat.floor]
    have r20 : roundTenths 20 = 20 := by norm_num [roundTenths, bankersRound, Rat.floor]
    have d1 : decide ((10:ℚ) = 20) = false := by norm_num
    have d2 : decide ((20:ℚ) = 20) = true := by simp
    have d3 : decide ((10:ℚ) = 10) = true := by simp
    have d4 : decide ((20:ℚ) = 10) = false := by norm_num
    have hle : ((10:ℚ) ≤ 20) := by norm_num
    have hd : ([10, 20] : List ℚ).dedup = [10, 20] := by
      rw [List.dedup_cons_of_not_mem (by norm_num), List.dedup_cons_of_not_mem (by simp),
        List.dedup_nil]
    simp only [extractFromChars, List.isEmpty_cons, Bool.false_eq_true, if_false,
      List.map_cons, List.map_nil, r10, r20, hd, sortQ, List.foldr_cons, List.foldr_nil,
      insertLeQ, hle, if_true, List.reverse_cons, List.reverse_nil, List.nil_append,
      List.cons_append, List.filter_cons, List.filter_nil, d1, d2, d3, d4, sortByX0,
      insertByX0, List.flatten]
    decide
  · decide

theorem mapIdx_map_proj {α β γ : Type} (g : β → γ) (f : Nat → α → β) (l : List α) :
    (l.mapIdx f).map g = l.mapIdx (fun i a => g (f i a)) := by
  induction l generalizing f with
  | nil => simp
  | cons a l ih => simp [List.mapIdx_cons, ih]

theorem mapIdx_snd {α : Type} (l : List α) : l.mapIdx (fun _ a => a) = l := by
  induction l with
  | nil => simp
  | cons a l ih => simp [List.mapIdx_cons, ih]

theorem mapIdx_const {α β : Type} (v : β) (l : List α) :
    l.mapIdx (fun _ _ => v) = List.replicate l.length v := by
  induction l with
  | nil => simp
  | cons a l ih => simp [List.mapIdx_cons, ih, List.replicate]

theorem mapIdx_idx_add {α : Type} (l : List α) :
    ∀ k, l.mapIdx (fun i _ => i + k) = (List.range l.length).map (fun i => i + k) := by
  induction l with
  | nil => intro k; simp
  | cons a l ih =>
    intro k
    rw [List.mapIdx_cons, List.length_cons, List.range_succ_eq_map, List.map_cons,
      List.map_map]
    have h1 : (fun (i : Nat) (_ : α) => i + 1 + k) = (fun (i : Nat) (_ : α) => i + (k + 1)) := by
      funext i a
      omega
    have h2 : ((fun (i : Nat) => i + k) ∘ Nat.succ) = (fun (i : Nat) => i + (k + 1)) := by
      funext i
      simp [Nat.succ_eq_add_one]
      omega
    simp only [h1, h2, ih (k + 1)]

/-- C1 (counterexample): a one-amount document.  With filename `pge.txt` the
structured chunk is emitted with `total_chunks = 1`, not `N + 1 = 2` as the
claim demands for every chunk of the document; with filename `bill.txt` (which
matches the insertion test but not the numbering test, line 437 checking only
`pge`) the regular chunk additionally keeps `chunk_id = 0` and
`total_chunks = 1` instead of the claimed `1` and `2`. -/
theorem chunk_documents_numbering_cex :
    (chunkDocuments 500 50 charEnc charDec
      [⟨("$ 15.00").toList, ("src").toList, ("pge.txt").toList⟩]).map
        (fun cs => cs.map (fun c => (c.chunk_id, c.total_chunks, c.type))) =
      some [(0, 1, ChunkType.structured_bill_info), (1, 2, ChunkType.text_chunk)] ∧
    (chunkDocuments 500 50 charEnc charDec
      [⟨("$ 15.00").toList, ("src").toList, ("bill.txt").toList⟩]).map
        (fun cs => cs.map (fun c => (c.chunk_id, c.total_chunks, c.type))) =
      some [(0, 1, ChunkType.structured_bill_info), (0, 1, ChunkType.text_chunk)] ∧
    extractBillInfo (("$ 15.00").toList) ≠ [] ∧
    ((0, 1, ChunkType.structured_bill_info) ≠ (0, 2, ChunkType.structured_bill_info) ∧
     (0, 1, ChunkType.text_chunk) ≠ (1, 2, ChunkType.text_chunk)) := by
  refine ⟨by decide, by decide, by decide, by decide, by decide⟩

/-- C1 (amended): for a document whose lowercased filename contains `pge` or
`bill` and whose text yields a non-empty structured report, the per-document
body of `chunk_documents` emits first the structured-info chunk with
`chunk_id 0`, type `structured_bill_info` and the constant `total_chunks 1`
(not `N + 1`); the `N` regular text chunks follow in order with their ids
offset by 1 and `total_chunks = N + 1` exactly when the filename contains
`pge` — a document matching only `bill` keeps ids `0..N-1` and
`total_chunks = N`. -/
theorem chunk_doc_numbering (cs co : Nat) (enc : List Char → List Nat)
    (dec : List Nat → List Char) (doc : RawDocument) (dcs : List (List Char))
    (hname : (hasSub (lowerList doc.filename) (("pge").toList)
        || hasSub (lowerList doc.filename) (("bill").toList)) = true)
    (hsi : extractBillInfo doc.content ≠ [])
    (hsplit : splitTextStr cs co enc dec doc.content = some dcs) :
    chunkDocuments cs co enc dec [doc] = chunkDoc cs co enc dec doc ∧
    ∃ regulars : List Chunk,
      chunkDoc cs co enc dec doc =
        some ({ content := extractBillInfo doc.content, source := doc.source,
                filename := doc.filename, chunk_id := 0, total_chunks := 1,
                type := ChunkType.structured_bill_info } :: regulars) ∧
      regulars.map Chunk.content = dcs ∧
      regulars.map Chunk.type = List.replicate dcs.length ChunkType.text_chunk ∧
      regulars.map Chunk.chunk_id = (List.range dcs.length).map
        (fun i => i + (if hasSub (lowerList doc.filename) (("pge").toList) then 1 else 0)) ∧
      regulars.map Chunk.total_chunks = List.replicate dcs.length
        (dcs.length + (if hasSub (lowerList doc.filename) (("pge").toList) then 1 else 0)) := by
  constructor
  · cases h : chunkDoc cs co enc dec doc with
    | none => simp [chunkDocuments, h, Bind.bind, Option.bind]
    | some a => simp [chunkDocuments, h, Bind.bind, Option.bind]
  · have hempty : (extractBillInfo doc.content).isEmpty = false := by
      simp [List.isEmpty_iff, hsi]
    refine ⟨dcs.mapIdx (fun i c =>
      { content := c, source := doc.source, filename := doc.filename,
        chunk_id := i + (if hasSub (lowerList doc.filename) (("pge").toList) then 1 else 0),
        total_chunks := dcs.length +
          (if hasSub (lowerList doc.filename) (("pge").toList) then 1 else 0),
        type := ChunkType.text_chunk }), ?_, ?_, ?_, ?_, ?_⟩
    · simp only [chunkDoc, hname, hsplit, hempty, if_true, Bool.not_false]
      simp
    · rw [mapIdx_map_proj]
      exact mapIdx_snd dcs
    · rw [mapIdx_map_proj]
      exact mapIdx_const _ dcs
    · rw [mapIdx_map_proj]
      exact mapIdx_idx_add dcs _
    · rw [mapIdx_map_proj]
      exact mapIdx_const _ dcs

/-- C1 (witness): the amended theorem applied to the concrete one-amount
document named `pge.txt` under the stand-in tokenizer. -/
theorem chunk_doc_numbering_witness :
    chunkDocuments 500 50 charEnc charDec
        [⟨("$ 15.00").toList, ("src").toList, ("pge.txt").toList⟩] =
      chunkDoc 500 50 charEnc charDec
        ⟨("$ 15.00").toList, ("src").toList, ("pge.txt").toList⟩ ∧
    ∃ regulars : List Chunk,
      chunkDoc 500 50 charEnc charDec
          ⟨("$ 15.00").toList, ("src").toList, ("pge.txt").toList⟩ =
        some ({ content := extractBillInfo (("$ 15.00").toList), source := ("src").toList,
                filename := ("pge.txt").toList, chunk_id := 0, total_chunks := 1,
                type := ChunkType.structured_bill_info } :: regulars) ∧
      regulars.map Chunk.content = [("$ 15.00").toList] ∧
      regulars.map Chunk.type = List.replicate 1 ChunkType.text_chunk ∧
      regulars.map Chunk.chunk_id = (List.range 1).map
        (fun i => i + (if hasSub (lowerList (("pge.txt").toList)) (("pge").toList)
          then 1 else 0)) ∧
      regulars.map Chunk.total_chunks = List.replicate 1
        (1 + (if hasSub (lowerList (("pge.txt").toList)) (("pge").toList)
          then 1 else 0)) :=
  chunk_doc_numbering 500 50 charEnc charDec
    ⟨("$ 15.00").toList, ("src").toList, ("pge.txt").toList⟩ [("$ 15.00").toList]
    (by decide) (by decide) (by decide)

theorem dropWhile_head_not (p : Char → Bool) :
    ∀ (l : List Char) (d : Char) (rest : List Char),
      l.dropWhile p = d :: rest → p d = false := by
  intro l
  induction l with
  | nil => intro d rest h; simp [List.dropWhile] at h
  | cons c cl ih =>
    intro d rest h
    by_cases hc : p c
    · rw [List.dropWhile_cons_of_pos hc] at h
      exact ih d rest h
    · rw [List.dropWhile_cons_of_neg hc] at h
      obtain ⟨rfl, -⟩ := List.cons.inj h
      simpa using hc

theorem pyStrip_subset (s : List Char) : ∀ c ∈ pyStrip s, c ∈ s := by
  intro c hc
  unfold pyStrip at hc
  rw [List.mem_reverse] at hc
  have h1 := (List.dropWhile_suffix pyIsSpace).subset hc
  rw [List.mem_reverse] at h1
  exact (List.dropWhile_suffix pyIsSpace).subset h1

theorem pyStrip_head_not_space (s : List Char) (d : Char) (rest : List Char)
    (h : pyStrip s = d :: rest) : pyIsSpace d = false := by
  have h0 : ((s.dropWhile pyIsSpace).reverse.dropWhile pyIsSpace) <:+
      (s.dropWhile pyIsSpace).reverse := List.dropWhile_suffix _
  have h1 := List.reverse_prefix.mpr h0
  rw [List.reverse_reverse] at h1
  obtain ⟨tail0, ht⟩ := h1
  unfold pyStrip at h
  rw [h] at ht
  exact dropWhile_head_not pyIsSpace s d (rest ++ tail0) ht.symm

theorem pyStrip_rev_head_not_space (s : List Char) (d : Char) (rest : List Char)
    (h : (pyStrip s).reverse = d :: rest) : pyIsSpace d = false := by
  unfold pyStrip at h
  rw [List.reverse_reverse] at h
  exact dropWhile_head_not pyIsSpace _ d rest h

theorem pyStrip_getLast_not_space (s : List Char) :
    ∀ x, (pyStrip s).getLast? = some x → pyIsSpace x = false := by
  intro x hx
  rw [← List.head?_reverse] at hx
  cases hr : (pyStrip s).reverse with
  | nil => rw [hr] at hx; simp at hx
  | cons d rest =>
    rw [hr] at hx
    simp at hx
    subst hx
    exact pyStrip_rev_head_not_space s d rest hr

theorem collapseAux_ne_nil (l : List Char) (c : Char) (hc : c ∈ l)
    (hns : pyIsSpace c = false) : ∀ b, collapseAux b l ≠ [] := by
  induction l with
  | nil => simp at hc
  | cons a l ih =>
    intro b
    by_cases ha : pyIsSpace a
    · have hcl : c ∈ l := by
        rcases List.mem_cons.mp hc with rfl | hm
        · rw [ha] at hns; cases hns
        · exact hm
      cases b with
      | false => simp [collapseAux, ha]
      | true => simpa [collapseAux, ha] using ih hcl true
    · simp [collapseAux, ha]

theorem collapseAux_mem (l : List Char) : ∀ (b : Bool), ∀ c ∈ collapseAux b l,
    c = ' ' ∨ (c ∈ l ∧ pyIsSpace c = false) := by
  induction l with
  | nil => intro b c hc; simp [collapseAux] at hc
  | cons a l ih =>
    intro b c hc
    by_cases ha : pyIsSpace a
    · cases b with
      | true =>
        simp only [collapseAux, ha, if_true] at hc
        rcases ih true c hc with h1 | ⟨hm, hn⟩
        · exact Or.inl h1
        · exact Or.inr ⟨List.mem_cons_of_mem a hm, hn⟩
      | false =>
        simp only [collapseAux, ha, if_true] at hc
        rcases List.mem_cons.mp hc with rfl | hm
        · exact Or.inl rfl
        · rcases ih true c hm with h1 | ⟨hm2, hn⟩
          · exact Or.inl h1
          · exact Or.inr ⟨List.mem_cons_of_mem a hm2, hn⟩
    · simp only [collapseAux, ha, if_false] at hc
      rcases List.mem_cons.mp hc with rfl | hm
      · right
        refine ⟨by simp, by simpa using ha⟩
      · rcases ih false c hm with h1 | ⟨hm2, hn⟩
        · exact Or.inl h1
        · exact Or.inr ⟨List.mem_cons_of_mem a hm2, hn⟩

theorem collapseAux_true_head (l : List Char) :
    ∀ d rest, collapseAux true l = d :: rest → pyIsSpace d = false := by
  induction l with
  | nil => intro d rest h; simp [collapseAux] at h
  | cons a l ih =>
    intro d rest h
    by_cases ha : pyIsSpace a
    · rw [show collapseAux true (a :: l) = collapseAux true l by simp [collapseAux, ha]] at h
      exact ih d rest h
    · rw [show collapseAux true (a :: l) = a :: collapseAux false l by
        simp [collapseAux, ha]] at h
      obtain ⟨rfl, -⟩ := List.cons.inj h
      simpa using ha

theorem collapseAux_chain (l : List Char) : ∀ b,
    List.Chain' (fun x y => ¬(x = ' ' ∧ y = ' ')) (collapseAux b l) := by
  induction l with
  | nil => intro b; simp [collapseAux]
  | cons a l ih =>
    intro b
    by_cases ha : pyIsSpace a
    · cases b with
      | true => simpa [collapseAux, ha] using ih true
      | false =>
        rcases hM : collapseAux true l with _ | ⟨d, M⟩
        · simp [collapseAux, ha, hM]
        · have hd : pyIsSpace d = false := collapseAux_true_head l d M hM
          rw [show collapseAux false (a :: l) = ' ' :: d :: M by simp [collapseAux, ha, hM],
            List.chain'_cons]
          constructor
          · rintro ⟨-, rfl⟩
            simp [pyIsSpace] at hd
          · have hch := ih true
            rw [hM] at hch
            exact hch
    · rcases hM : collapseAux false l with _ | ⟨d, M⟩
      · simp [collapseAux, ha, hM]
      · rw [show collapseAux b (a :: l) = a :: d :: M by simp [collapseAux, ha, hM],
          List.chain'_cons]
        constructor
        · rintro ⟨rfl, -⟩
          exact ha (by decide)
        · have hch := ih false
          rw [hM] at hch
          exact hch

theorem collapseAux_getLast (l : List Char)
    (hl : ∀ x, l.getLast? = some x → pyIsSpace x = false) :
    ∀ b y, (collapseAux b l).getLast? = some y → pyIsSpace y = false := by
  induction l with
  | nil => intro b y h; simp [collapseAux] at h
  | cons a l ih =>
    intro b y h
    cases l with
    | nil =>
      have ha : pyIsSpace a = false := hl a (by simp)
      rw [show collapseAux b [a] = [a] by simp [collapseAux, ha]] at h
      simp at h
      subst h
      exact ha
    | cons a2 l2 =>
      have hl' : ∀ x, (a2 :: l2).getLast? = some x → pyIsSpace x = false := by
        intro x hx
        exact hl x (by rw [List.getLast?_cons_cons]; exact hx)
      have hlastne : (a2 :: l2) ≠ ([] : List Char) := by simp
      have hlast := List.getLast?_eq_getLast (a2 :: l2) hlastne
      have hlastns : pyIsSpace ((a2 :: l2).getLast hlastne) = false := hl' _ hlast
      have hlastmem : (a2 :: l2).getLast hlastne ∈ (a2 :: l2) := List.getLast_mem hlastne
      have hne : ∀ b2, collapseAux b2 (a2 :: l2) ≠ [] :=
        collapseAux_ne_nil (a2 :: l2) _ hlastmem hlastns
      by_cases ha : pyIsSpace a
      · cases b with
        | true =>
          rw [show collapseAux true (a :: a2 :: l2) = collapseAux true (a2 :: l2) by
            simp [collapseAux, ha]] at h
          exact ih hl' true y h
        | false =>
          rw [show collapseAux false (a :: a2 :: l2) = ' ' :: collapseAux true (a2 :: l2) by
            simp [collapseAux, ha]] at h
          rcases hM : collapseAux true (a2 :: l2) with _ | ⟨d, M⟩
          · exact absurd hM (hne true)
          · rw [hM, List.getLast?_cons_cons] at h
            refine ih hl' true y ?_
            rw [hM]
            exact h
      · rw [show collapseAux b (a :: a2 :: l2) = a :: collapseAux false (a2 :: l2) by
          simp [collapseAux, ha]] at h
        rcases hM : collapseAux false (a2 :: l2) with _ | ⟨d, M⟩
        · exact absurd hM (hne false)
        · rw [hM, List.getLast?_cons_cons] at h
          refine ih hl' false y ?_
          rw [hM]
          exact h

theorem collapseAux_fix : ∀ (n : Nat) (t : List Char), t.length ≤ n →
    (∀ c ∈ t, pyIsSpace c = true → c = ' ') →
    List.Chain' (fun x y => ¬(x = ' ' ∧ y = ' ')) t →
    collapseAux false t = t ∧
    (∀ d rest, t = d :: rest → pyIsSpace d = false → collapseAux true t = t) := by
  intro n
  induction n with
  | zero =>
    intro t ht _ _
    have h0 : t = [] := by
      cases t with
      | nil => rfl
      | cons a l => simp at ht
    subst h0
    exact ⟨rfl, by intro d rest h; cases h⟩
  | succ n ih =>
    intro t ht hws hch
    cases t with
    | nil => exact ⟨rfl, by intro d rest h; cases h⟩
    | cons a t' =>
      by_cases ha : pyIsSpace a
      · have ha' : a = ' ' := hws a (by simp) ha
        subst ha'
        have htt' : collapseAux true t' = t' := by
          cases t' with
          | nil => simp [collapseAux]
          | cons d rest' =>
            have hd : ¬(' ' = ' ' ∧ d = ' ') := (List.chain'_cons.mp hch).1
            have hd' : d ≠ ' ' := fun hh => hd ⟨rfl, hh⟩
            have hdns : pyIsSpace d = false := by
              by_cases hdw : pyIsSpace d
              · exact absurd (hws d (by simp) hdw) hd'
              · simpa using hdw
            exact (ih (d :: rest') (by simpa using ht)
              (fun c hc => hws c (List.mem_cons_of_mem _ hc))
              (List.chain'_cons.mp hch).2).2 d rest' rfl hdns
        constructor
        · have hsp : pyIsSpace ' ' = true := by decide
          simp [collapseAux, hsp, htt']
        · intro d rest h hd
          obtain ⟨hda, -⟩ := List.cons.inj h
          rw [← hda] at hd
          exact absurd hd (by simp [pyIsSpace])
      · have hfix : collapseAux false t' = t' :=
          (ih t' (by simpa using ht) (fun c hc => hws c (List.mem_cons_of_mem _ hc))
            hch.tail).1
        exact ⟨by simp [collapseAux, ha, hfix],
          by intro d rest h hd; simp [collapseAux, ha, hfix]⟩

theorem pyStrip_fix (t : List Char)
    (hhead : ∀ d rest, t = d :: rest → pyIsSpace d = false)
    (hlast : ∀ y, t.getLast? = some y → pyIsSpace y = false) :
    pyStrip t = t := by
  unfold pyStrip
  have h1 : t.dropWhile pyIsSpace = t := by
    cases t with
    | nil => rfl
    | cons d rest => exact List.dropWhile_cons_of_neg (by simp [hhead d rest rfl])
  rw [h1]
  have h2 : t.reverse.dropWhile pyIsSpace = t.reverse := by
    cases hr : t.reverse with
    | nil => rfl
    | cons d rest =>
      have hd : t.getLast? = some d := by
        rw [← List.head?_reverse, hr]
        rfl
      exact List.dropWhile_cons_of_neg (by simp [hlast d hd])
  rw [h2, List.reverse_reverse]

theorem subBlankF_fix : ∀ (fuel : Nat) (t : List Char), t.length ≤ fuel →
    (∀ c ∈ t, c ≠ '\n') → subBlankF fuel t = t := by
  intro fuel
  induction fuel with
  | zero =>
    intro t ht _
    have h0 : t = [] := by
      cases t with
      | nil => rfl
      | cons a l => simp at ht
    subst h0
    rfl
  | succ fuel ih =>
    intro t ht hn
    cases t with
    | nil => rfl
    | cons c rest =>
      have hc : ¬(c = '\n') := hn c (by simp)
      simp only [subBlankF, if_neg hc]
      rw [ih rest (by simpa using ht) (fun x hx => hn x (List.mem_cons_of_mem _ hx))]

theorem subSpacesF_fix : ∀ (fuel : Nat) (t : List Char), t.length ≤ fuel →
    List.Chain' (fun x y => ¬(x = ' ' ∧ y = ' ')) t → subSpacesF fuel t = t := by
  intro fuel
  induction fuel with
  | zero =>
    intro t ht _
    have h0 : t = [] := by
      cases t with
      | nil => rfl
      | cons a l => simp at ht
    subst h0
    rfl
  | succ fuel ih =>
    intro t ht hch
    cases t with
    | nil => rfl
    | cons c rest =>
      by_cases hc : c = ' '
      · subst hc
        have hrun : rest.takeWhile (fun d => d = ' ') = [] := by
          cases rest with
          | nil => rfl
          | cons d rest2 =>
            have hd : d ≠ ' ' := fun hh => (List.chain'_cons.mp hch).1 ⟨rfl, hh⟩
            exact List.takeWhile_cons_of_neg (by simp [hd])
        simp only [subSpacesF, if_pos rfl, hrun, List.length_nil]
        rw [if_neg (show ¬(2 ≤ (0 : Nat)) by omega)]
        rw [ih rest (by simp only [List.length_cons] at ht; omega) hch.tail]
        simp
      · simp only [subSpacesF, if_neg hc]
        rw [ih rest (by simpa using ht) hch.tail]

theorem applyReplacements_fix (t : List Char) (h : ∀ c ∈ t, allowedChar c = true) :
    applyReplacements t = t := by
  have idmap : ∀ (p c : Char), (if c = p then p else c) = c := by
    intro p c
    by_cases hcp : c = p
    · simp [hcp]
    · simp [hcp]
  unfold applyReplacements replacementPairs
  simp only [List.foldl_cons, List.foldl_nil, List.map_map]
  calc _ = t.map (fun c => c) := by
        apply List.map_congr_left
        intro c hc
        have hA := h c hc
        by_cases h1 : c = '−'
        · subst h1; exact absurd hA (by decide)
        · by_cases h2 : c = '–'
          · subst h2; exact absurd hA (by decide)
          · by_cases h3 : c = '—'
            · subst h3; exact absurd hA (by decide)
            · simp only [Function.comp_apply, idmap, if_neg h1, if_neg h2, if_neg h3]
    _ = t := List.map_id' t

/-- C7 (counterexample): `_clean_text` is not idempotent.  On `"~ a"` the
character filter drops the `~` after whitespace collapsing, leaving `" a"`
with a leading space; a second application strips that space, giving `"a"`. -/
theorem clean_text_not_idempotent :
    cleanText (cleanText (("~ a").toList)) ≠ cleanText (("~ a").toList) := by
  decide

/-- C7 (amended): `_clean_text` is idempotent on strings all of whose
characters survive its character filter (word characters, whitespace, allowed
punctuation).  In general a filtered-out character can expose new leading,
trailing or adjacent whitespace that only the second pass cleans, as the
counterexample shows. -/
theorem clean_text_idempotent_on_allowed (s : List Char)
    (h : ∀ c ∈ s, allowedChar c = true) :
    cleanText (cleanText s) = cleanText s := by
  have hwsOnly : ∀ c ∈ collapseWs (pyStrip s), pyIsSpace c = true → c = ' ' := by
    intro c hc hws
    rcases collapseAux_mem (pyStrip s) false c hc with h1 | ⟨-, hn⟩
    · exact h1
    · rw [hws] at hn; cases hn
  have hallowed : ∀ c ∈ collapseWs (pyStrip s), allowedChar c = true := by
    intro c hc
    rcases collapseAux_mem (pyStrip s) false c hc with rfl | ⟨hm, -⟩
    · decide
    · exact h c (pyStrip_subset s c hm)
  have hchain : List.Chain' (fun x y => ¬(x = ' ' ∧ y = ' ')) (collapseWs (pyStrip s)) :=
    collapseAux_chain (pyStrip s) false
  have hnoNl : ∀ c ∈ collapseWs (pyStrip s), c ≠ '\n' := by
    intro c hc heq
    subst heq
    exact absurd (hwsOnly _ hc (by decide)) (by decide)
  have hpost : ∀ u : List Char, (∀ c ∈ u, allowedChar c = true) →
      (∀ c ∈ u, c ≠ '\n') → List.Chain' (fun x y => ¬(x = ' ' ∧ y = ' ')) u →
      subSpaces (subBlank (applyReplacements (filterAllowed u))) = u := by
    intro u hu hnl hcu
    rw [show filterAllowed u = u from List.filter_eq_self.mpr hu]
    rw [applyReplacements_fix u hu]
    rw [show subBlank u = u from subBlankF_fix u.length u le_rfl hnl]
    exact subSpacesF_fix u.length u le_rfl hcu
  have hclean1 : cleanText s = collapseWs (pyStrip s) := by
    unfold cleanText
    exact hpost _ hallowed hnoNl hchain
  have hhead : ∀ d rest, collapseWs (pyStrip s) = d :: rest → pyIsSpace d = false := by
    intro d rest hd
    rcases hps : pyStrip s with _ | ⟨x, l2⟩
    · rw [hps] at hd
      simp [collapseWs, collapseAux] at hd
    · have hx : pyIsSpace x = false := pyStrip_head_not_space s x l2 hps
      rw [hps] at hd
      rw [show collapseWs (x :: l2) = x :: collapseAux false l2 by
        simp [collapseWs, collapseAux, hx]] at hd
      obtain ⟨rfl, -⟩ := List.cons.inj hd
      exact hx
  have hlast : ∀ y, (collapseWs (pyStrip s)).getLast? = some y → pyIsSpace y = false :=
    collapseAux_getLast (pyStrip s) (pyStrip_getLast_not_space s) false
  have hstrip2 : pyStrip (collapseWs (pyStrip s)) = collapseWs (pyStrip s) :=
    pyStrip_fix _ hhead hlast
  have hcollapse2 : collapseWs (collapseWs (pyStrip s)) = collapseWs (pyStrip s) :=
    (collapseAux_fix (collapseWs (pyStrip s)).length _ le_rfl hwsOnly hchain).1
  have hclean2 : cleanText (collapseWs (pyStrip s)) = collapseWs (pyStrip s) := by
    unfold cleanText
    rw [hstrip2, hcollapse2]
    exact hpost _ hallowed hnoNl hchain
  rw [hclean1, hclean2]

/-- C7 (witness): a string of allowed characters with internal runs of spaces
and newlines; one normalization pass is a fixed point of a second. -/
theorem clean_text_idempotent_witness :
    (∀ c ∈ (("a  b.\n\nc$d").toList), allowedChar c = true) ∧
    cleanText (cleanText (("a  b.\n\nc$d").toList)) = cleanText (("a  b.\n\nc$d").toList) :=
  ⟨by decide, clean_text_idempotent_on_allowed _ (by decide)⟩

theorem digit_wordChar (c : Char) (h : c.isDigit = true) : wordChar c = true := by
  simp [wordChar, Char.isAlphanum, h]

theorem tryMatchDigitWord_rest_length {t r : Char} {l : List Char}
    {er : List Char × List Char} (h : tryMatchDigitWord t r l = some er) :
    er.2.length < l.length := by
  unfold tryMatchDigitWord at h
  rcases hd : l.dropWhile Char.isDigit with _ | ⟨x, l2⟩ <;> rw [hd] at h
  · simp at h
  · by_cases hx : x = t
    · simp only [hx, if_true] at h
      split at h
      · simp only [Option.some.injEq] at h
        have h3 : (l2.dropWhile Char.isDigit).length ≤ l2.length :=
          (List.dropWhile_sublist _).length_le
        have h4 : (l.dropWhile Char.isDigit).length ≤ l.length :=
          (List.dropWhile_sublist _).length_le
        rw [hd] at h4
        rw [← h]
        simp only [List.length_cons] at h4 ⊢
        omega
      · simp at h
    · simp [hx] at h

theorem subDigitWordF_fuel_irrel (t r : Char) : ∀ (n : Nat) (l : List Char),
    l.length ≤ n → ∀ (fuel1 fuel2 : Nat) (b : Bool), l.length ≤ fuel1 → l.length ≤ fuel2 →
    subDigitWordF t r fuel1 b l = subDigitWordF t r fuel2 b l := by
  intro n
  induction n with
  | zero =>
    intro l hl fuel1 fuel2 b h1 h2
    have h0 : l = [] := by
      cases l with
      | nil => rfl
      | cons a m => simp at hl
    subst h0
    cases fuel1 <;> cases fuel2 <;> rfl
  | succ n ih =>
    intro l hl fuel1 fuel2 b h1 h2
    cases l with
    | nil => cases fuel1 <;> cases fuel2 <;> rfl
    | cons c rest =>
      obtain ⟨f1, rfl⟩ : ∃ f1, fuel1 = f1 + 1 := ⟨fuel1 - 1, by simp at h1; omega⟩
      obtain ⟨f2, rfl⟩ : ∃ f2, fuel2 = f2 + 1 := ⟨fuel2 - 1, by simp at h2; omega⟩
      simp only [List.length_cons] at hl h1 h2
      by_cases hb : b = true
      · subst hb
        simp only [subDigitWordF, if_true]
        rw [ih rest (by omega) f1 f2 (wordChar c) (by omega) (by omega)]
      · have hb' : b = false := by simp at hb; exact hb
        subst hb'
        simp only [subDigitWordF, Bool.false_eq_true, if_false]
        cases hm : tryMatchDigitWord t r (c :: rest) with
        | some er =>
          have hlt : er.2.length < rest.length + 1 := by
            have := tryMatchDigitWord_rest_length hm
            simpa using this
          simp only [ih er.2 (by omega) f1 f2 true (by omega) (by omega)]
        | none =>
          simp only [ih rest (by omega) f1 f2 (wordChar c) (by omega) (by omega)]

theorem runMapSubF_fuel_irrel (t r : Char) : ∀ (n : Nat) (l : List Char),
    l.length ≤ n → ∀ (fuel1 fuel2 : Nat), l.length ≤ fuel1 → l.length ≤ fuel2 →
    runMapSubF t r fuel1 l = runMapSubF t r fuel2 l := by
  intro n
  induction n with
  | zero =>
    intro l hl fuel1 fuel2 h1 h2
    have h0 : l = [] := by
      cases l with
      | nil => rfl
      | cons a m => simp at hl
    subst h0
    cases fuel1 <;> cases fuel2 <;> rfl
  | succ n ih =>
    intro l hl fuel1 fuel2 h1 h2
    cases l with
    | nil => cases fuel1 <;> cases fuel2 <;> rfl
    | cons c rest =>
      obtain ⟨f1, rfl⟩ : ∃ f1, fuel1 = f1 + 1 := ⟨fuel1 - 1, by simp at h1; omega⟩
      obtain ⟨f2, rfl⟩ : ∃ f2, fuel2 = f2 + 1 := ⟨fuel2 - 1, by simp at h2; omega⟩
      simp only [List.length_cons] at hl h1 h2
      by_cases hw : wordChar c
      · simp only [runMapSubF, hw, if_true]
        have hdrop : ((c :: rest).dropWhile wordChar).length ≤ rest.length := by
          rw [List.dropWhile_cons_of_pos hw]
          exact (List.dropWhile_sublist _).length_le
        rw [ih ((c :: rest).dropWhile wordChar) (by omega) f1 f2 (by omega) (by omega)]
      · simp only [runMapSubF, hw, Bool.false_eq_true, if_false]
        rw [ih rest (by omega) f1 f2 (by omega) (by omega)]

theorem subDigitWordF_inrun (t r : Char) : ∀ (run : List Char),
    run.all wordChar = true → ∀ (fuel : Nat) (tail : List Char),
    (run ++ tail).length ≤ fuel →
    subDigitWordF t r fuel true (run ++ tail) =
      run ++ subDigitWordF t r (fuel - run.length) true tail := by
  intro run
  induction run with
  | nil =>
    intro _ fuel tail _
    simp
  | cons a run2 ih =>
    intro hall fuel tail hlen
    obtain ⟨f, rfl⟩ : ∃ f, fuel = f + 1 := ⟨fuel - 1, by simp at hlen; omega⟩
    have ha : wordChar a = true := by
      have := List.all_eq_true.mp hall a (by simp)
      exact this
    have hall2 : run2.all wordChar = true := by
      rw [List.all_eq_true] at hall ⊢
      intro x hx
      exact hall x (List.mem_cons_of_mem _ hx)
    simp only [List.cons_append, subDigitWordF, if_true, ha]
    rw [show run2.append tail = run2 ++ tail from rfl]
    rw [ih hall2 f tail (by simp at hlen ⊢; omega)]
    have harith : f + 1 - (a :: run2).length = f - run2.length := by
      simp only [List.length_cons]
      omega
    rw [harith]

theorem subDigitWordF_switch (t r : Char) (ht1 : wordChar t = true) :
    ∀ (fuel : Nat) (tail : List Char),
    (tail = [] ∨ ∃ d rest2, tail = d :: rest2 ∧ wordChar d = false) →
    subDigitWordF t r fuel true tail = subDigitWordF t r fuel false tail := by
  intro fuel tail htail
  rcases htail with rfl | ⟨d, rest2, rfl, hd⟩
  · cases fuel <;> rfl
  · cases fuel with
    | zero => rfl
    | succ f =>
      have hmatch : tryMatchDigitWord t r (d :: rest2) = none := by
        unfold tryMatchDigitWord
        have hdd : d.isDigit = false := by
          by_cases hdig : d.isDigit
          · exact absurd (digit_wordChar d hdig) (by simp [hd])
          · simpa using hdig
        rw [List.dropWhile_cons_of_neg (by simp [hdd]), List.takeWhile_cons_of_neg
          (by simp [hdd])]
        have hdt : ¬(d = t) := by
          intro hh
          rw [hh] at hd
          rw [ht1] at hd
          cases hd
        simp [hdt]
      simp only [subDigitWordF, if_true, Bool.false_eq_true, if_false, hmatch]

theorem tryMatch_at_run (t r : Char) (ht1 : wordChar t = true) (ht2 : t.isDigit = false)
    (run tail : List Char) (hrun : run.all wordChar = true)
    (htail : tail = [] ∨ ∃ d rest2, tail = d :: rest2 ∧ wordChar d = false) :
    tryMatchDigitWord t r (run ++ tail) =
      if isPatternRun t run then
        some (run.map (fun x => if x = t then r else x), tail)
      else none := by
  have htail_nd : ∀ (d : Char) (rest2 : List Char), tail = d :: rest2 → d.isDigit = false := by
    intro d rest2 hd
    rcases htail with rfl | ⟨d2, r2, he, hw⟩
    · cases hd
    · rw [he] at hd
      obtain ⟨h1, -⟩ := List.cons.inj hd
      rw [← h1]
      by_cases hdig : d2.isDigit
      · exact absurd (digit_wordChar d2 hdig) (by simp [hw])
      · simpa using hdig
  have h_take_tail : tail.takeWhile Char.isDigit = [] := by
    rcases ht : tail with _ | ⟨d, rest2⟩
    · rfl
    · exact List.takeWhile_cons_of_neg (by simp [htail_nd d rest2 ht])
  have h_drop_tail : tail.dropWhile Char.isDigit = tail := by
    rcases ht : tail with _ | ⟨d, rest2⟩
    · rfl
    · exact List.dropWhile_cons_of_neg (by simp [htail_nd d rest2 ht])
  unfold tryMatchDigitWord
  rcases hrest : run.dropWhile Char.isDigit with _ | ⟨x, run2⟩
  · -- the run is all digits: no letter, no match, not a pattern run
    have hall_digit : ∀ c ∈ run, c.isDigit = true := List.dropWhile_eq_nil_iff.mp hrest
    have ht_not_mem : t ∉ run := by
      intro hm
      rw [hall_digit t hm] at ht2
      cases ht2
    have hcount : run.count t = 0 := List.count_eq_zero.mpr ht_not_mem
    have hpat : isPatternRun t run = false := by
      simp [isPatternRun, hcount]
    rw [hpat, if_neg (by simp)]
    rw [List.dropWhile_append_of_pos hall_digit, h_drop_tail]
    rcases htail with rfl | ⟨d, rest2, rfl, hw⟩
    · rfl
    · have hdt : ¬(d = t) := by
        intro hh
        rw [hh, ht1] at hw
        cases hw
      simp [hdt]
  · -- the run has a first non-digit character x
    have hx_nondigit : x.isDigit = false := dropWhile_head_not Char.isDigit run x run2 hrest
    have hx_mem : x ∈ run := by
      have hsuf := List.dropWhile_suffix (l := run) Char.isDigit
      rw [hrest] at hsuf
      exact hsuf.subset (by simp)
    have hsplit : run.takeWhile Char.isDigit ++ (x :: run2) = run := by
      rw [← hrest]
      exact List.takeWhile_append_dropWhile Char.isDigit run
    have hds_digit : ∀ c ∈ run.takeWhile Char.isDigit, c.isDigit = true := by
      intro c hc
      exact List.mem_takeWhile_imp hc
    have h_not_all : ¬((run.takeWhile Char.isDigit).length = run.length) := by
      intro hlen
      have heq : run.takeWhile Char.isDigit = run :=
        (List.takeWhile_prefix Char.isDigit).eq_of_length hlen
      rw [heq] at hds_digit
      rw [hds_digit x hx_mem] at hx_nondigit
      cases hx_nondigit
    have h_take : (run ++ tail).takeWhile Char.isDigit = run.takeWhile Char.isDigit := by
      rw [List.takeWhile_append]
      rw [if_neg h_not_all]
    have h_drop : (run ++ tail).dropWhile Char.isDigit = x :: (run2 ++ tail) := by
      rw [List.dropWhile_append]
      rw [hrest]
      simp
    rw [h_take, h_drop]
    simp only []
    by_cases hxt : x = t
    · rw [if_pos hxt]
      rw [hxt] at hsplit
      rcases hrest2 : run2.dropWhile Char.isDigit with _ | ⟨y, rest3⟩
      · -- everything after the letter is digits: a pattern run, matched whole
        have hall2 : ∀ c ∈ run2, c.isDigit = true := List.dropWhile_eq_nil_iff.mp hrest2
        have h_take2 : (run2 ++ tail).takeWhile Char.isDigit = run2 := by
          rw [List.takeWhile_append_of_pos hall2, h_take_tail, List.append_nil]
        have h_drop2 : (run2 ++ tail).dropWhile Char.isDigit = tail := by
          rw [List.dropWhile_append_of_pos hall2, h_drop_tail]
        rw [h_take2, h_drop2]
        have ht_not_ds : t ∉ run.takeWhile Char.isDigit := by
          intro hm
          rw [hds_digit t hm] at ht2
          cases ht2
        have ht_not_run2 : t ∉ run2 := by
          intro hm
          rw [hall2 t hm] at ht2
          cases ht2
        have hpat : isPatternRun t run = true := by
          rw [isPatternRun, ← hsplit]
          have hall_ok : ((run.takeWhile Char.isDigit ++ (t :: run2)).all
              (fun c => c.isDigit || c = t)) = true := by
            rw [List.all_eq_true]
            intro c hc
            rcases List.mem_append.mp hc with hc1 | hc2
            · simp [hds_digit c hc1]
            · rcases List.mem_cons.mp hc2 with rfl | hc3
              · simp
              · simp [hall2 c hc3]
          rw [hall_ok]
          simp only [Bool.true_and]
          rw [List.count_append]
          rw [List.count_eq_zero.mpr ht_not_ds]
          rw [List.count_cons_self]
          rw [List.count_eq_zero.mpr ht_not_run2]
          simp
        have hmap : run.map (fun c => if c = t then r else c) =
            run.takeWhile Char.isDigit ++ r :: run2 := by
          conv_lhs => rw [← hsplit]
          rw [List.map_append, List.map_cons, if_pos rfl]
          congr 1
          · apply List.map_congr_left ?_ |>.trans (List.map_id _)
            intro c hc
            have : ¬(c = t) := by
              intro hh
              rw [hh] at hc
              exact ht_not_ds hc
            simp [this]
          · congr 1
            apply List.map_congr_left ?_ |>.trans (List.map_id _)
            intro c hc
            have : ¬(c = t) := by
              intro hh
              rw [hh] at hc
              exact ht_not_run2 hc
            simp [this]
        rcases htail with rfl | ⟨d0, rest0, rfl, hw0⟩
        · simp [hpat, hmap]
        · simp [hpat, hmap, hw0]
      · -- a second non-digit inside the run: the closing boundary fails,
        -- and the run is not a pattern run
        have hy_nondigit : y.isDigit = false :=
          dropWhile_head_not Char.isDigit run2 y rest3 hrest2
        have hy_mem2 : y ∈ run2 := by
          have hsuf := List.dropWhile_suffix (l := run2) Char.isDigit
          rw [hrest2] at hsuf
          exact hsuf.subset (by simp)
        have hy_mem : y ∈ run := by
          rw [← hsplit]
          exact List.mem_append.mpr (Or.inr (List.mem_cons_of_mem _ hy_mem2))
        have hy_word : wordChar y = true := List.all_eq_true.mp hrun y hy_mem
        have h_drop2 : (run2 ++ tail).dropWhile Char.isDigit = y :: (rest3 ++ tail) := by
          rw [List.dropWhile_append]
          rw [hrest2]
          simp
        rw [h_drop2]
        rw [if_neg (by simp [hy_word])]
        have hpat : isPatternRun t run = false := by
          by_cases hyt : y = t
          · -- two occurrences of the letter: the count is at least 2
            rw [hyt] at hy_mem2
            have hcnt : run.count t ≠ 1 := by
              rw [← hsplit, List.count_append, List.count_cons_self]
              have hc2 : 0 < run2.count t := List.count_pos_iff.mpr hy_mem2
              omega
            simp [isPatternRun, hcnt]
          · -- a non-digit character other than the letter: the run test fails
            have hall : run.all (fun c => c.isDigit || c = t) = false := by
              rw [List.all_eq_false]
              exact ⟨y, hy_mem, by simp [hy_nondigit, hyt]⟩
            simp [isPatternRun, hall]
        rw [hpat, if_neg (by simp)]
    · rw [if_neg hxt]
      have hpat : isPatternRun t run = false := by
        rw [isPatternRun]
        have : run.all (fun c => c.isDigit || c = t) = false := by
          rw [List.all_eq_false]
          exact ⟨x, hx_mem, by simp [hx_nondigit, hxt]⟩
        rw [this]
        simp
      rw [hpat, if_neg (by simp)]

theorem scan_eq_runMap (t r : Char) (ht1 : wordChar t = true) (ht2 : t.isDigit = false) :
    ∀ (n : Nat) (l : List Char), l.length ≤ n → ∀ (fuel : Nat), l.length ≤ fuel →
      subDigitWordF t r fuel false l = runMapSubF t r fuel l := by
  intro n
  induction n with
  | zero =>
    intro l hl fuel hf
    have h0 : l = [] := by
      cases l with
      | nil => rfl
      | cons a m => simp at hl
    subst h0
    cases fuel <;> rfl
  | succ n ih =>
    intro l hl fuel hf
    cases l with
    | nil => cases fuel <;> rfl
    | cons c rest =>
      obtain ⟨f, rfl⟩ : ∃ f, fuel = f + 1 := ⟨fuel - 1, by simp at hf; omega⟩
      simp only [List.length_cons] at hl hf
      by_cases hw : wordChar c = true
      · have hrun_cons : (c :: rest).takeWhile wordChar = c :: rest.takeWhile wordChar :=
          List.takeWhile_cons_of_pos hw
        have hdrop_cons : (c :: rest).dropWhile wordChar = rest.dropWhile wordChar :=
          List.dropWhile_cons_of_pos hw
        have hsplitCR : (c :: rest).takeWhile wordChar ++ (c :: rest).dropWhile wordChar =
            c :: rest := List.takeWhile_append_dropWhile _ _
        have hrun_all : ((c :: rest).takeWhile wordChar).all wordChar = true := by
          rw [List.all_eq_true]
          intro x hx
          exact List.mem_takeWhile_imp hx
        have htail_shape : ((c :: rest).dropWhile wordChar) = [] ∨
            ∃ d rest2, (c :: rest).dropWhile wordChar = d :: rest2 ∧ wordChar d = false := by
          rcases hdw : (c :: rest).dropWhile wordChar with _ | ⟨d, r2⟩
          · exact Or.inl rfl
          · exact Or.inr ⟨d, r2, rfl, dropWhile_head_not wordChar (c :: rest) d r2 hdw⟩
        have htail_len : ((c :: rest).dropWhile wordChar).length ≤ rest.length := by
          rw [hdrop_cons]
          exact (List.dropWhile_sublist _).length_le
        have hmatch := tryMatch_at_run t r ht1 ht2 ((c :: rest).takeWhile wordChar)
          ((c :: rest).dropWhile wordChar) hrun_all htail_shape
        rw [hsplitCR] at hmatch
        have hRHS : runMapSubF t r (f + 1) (c :: rest) =
            rewriteRun t r ((c :: rest).takeWhile wordChar) ++
              runMapSubF t r f ((c :: rest).dropWhile wordChar) := by
          simp only [runMapSubF, hw, if_true]
        by_cases hpat : isPatternRun t ((c :: rest).takeWhile wordChar) = true
        · rw [if_pos hpat] at hmatch
          have hLHS : subDigitWordF t r (f + 1) false (c :: rest) =
              (((c :: rest).takeWhile wordChar).map (fun x => if x = t then r else x)) ++
                subDigitWordF t r f true ((c :: rest).dropWhile wordChar) := by
            simp only [subDigitWordF, Bool.false_eq_true, if_false, hmatch]
          rw [hLHS, hRHS]
          rw [subDigitWordF_switch t r ht1 f _ htail_shape]
          rw [ih ((c :: rest).dropWhile wordChar) (by omega) f (by omega)]
          rw [rewriteRun, if_pos hpat]
        · rw [if_neg hpat] at hmatch
          have hLHS : subDigitWordF t r (f + 1) false (c :: rest) =
              c :: subDigitWordF t r f (wordChar c) rest := by
            simp only [subDigitWordF, Bool.false_eq_true, if_false, hmatch]
          rw [hLHS, hRHS, hw]
          have hsplitR : rest.takeWhile wordChar ++ rest.dropWhile wordChar = rest :=
            List.takeWhile_append_dropWhile _ _
          have hrun2_all : (rest.takeWhile wordChar).all wordChar = true := by
            rw [List.all_eq_true]
            intro x hx
            exact List.mem_takeWhile_imp hx
          conv_lhs => rw [← hsplitR]
          rw [subDigitWordF_inrun t r (rest.takeWhile wordChar) hrun2_all f
            (rest.dropWhile wordChar) (by rw [hsplitR]; omega)]
          rw [hdrop_cons] at htail_shape
          rw [subDigitWordF_switch t r ht1 _ _ htail_shape]
          have hlensum : (rest.takeWhile wordChar).length + (rest.dropWhile wordChar).length =
              rest.length := by
            rw [← List.length_append, hsplitR]
          have hlen2 : (rest.dropWhile wordChar).length ≤ f - (rest.takeWhile wordChar).length := by
            omega
          rw [ih (rest.dropWhile wordChar) (by omega) (f - (rest.takeWhile wordChar).length) hlen2]
          rw [runMapSubF_fuel_irrel t r (rest.dropWhile wordChar).length
            (rest.dropWhile wordChar) le_rfl (f - (rest.takeWhile wordChar).length) f hlen2
            (by omega)]
          rw [rewriteRun, if_neg hpat, hrun_cons, hdrop_cons]
          simp
      · have hw' : wordChar c = false := by simpa using hw
        have hmatch_none : tryMatchDigitWord t r (c :: rest) = none := by
          unfold tryMatchDigitWord
          have hcd : c.isDigit = false := by
            by_cases hdig : c.isDigit
            · exact absurd (digit_wordChar c hdig) (by simp [hw'])
            · simpa using hdig
          rw [List.dropWhile_cons_of_neg (by simp [hcd]),
            List.takeWhile_cons_of_neg (by simp [hcd])]
          have hct : ¬(c = t) := by
            intro hh
            rw [hh, ht1] at hw'
            cases hw'
          simp [hct]
        have hLHS : subDigitWordF t r (f + 1) false (c :: rest) =
            c :: subDigitWordF t r f (wordChar c) rest := by
          simp only [subDigitWordF, Bool.false_eq_true, if_false, hmatch_none]
        have hRHS : runMapSubF t r (f + 1) (c :: rest) = c :: runMapSubF t r f rest := by
          simp only [runMapSubF, hw', Bool.false_eq_true, if_false]
        rw [hLHS, hRHS, hw']
        rw [ih rest (by omega) f (by omega)]

/-- C8 (counterexample): in the cell `"O 5"` the whitespace token `O` contains
no digit, yet because the cell as a whole contains the digit `5` the global
digit test passes and the standalone `O` (a word run matching `\b\d*O\d*\b`
with zero digits) is rewritten to `0`. -/
theorem clean_cell_digit_free_token_rewritten :
    cleanCellText (("O 5").toList) = ("0 5").toList ∧
    joinTokens (("O 5").toList) = ("O 5").toList ∧
    (("O").toList).any Char.isDigit = false ∧
    ("0 5").toList ≠ ("O 5").toList := by
  decide

/-- C8 (amended): the rewriting is gated by the whole cell containing at least
one digit, not by the individual token: a cell with no digit anywhere is
carried through unchanged apart from whitespace collapsing, and in a
digit-containing cell the scans rewrite exactly the maximal word-character
runs consisting of digits around a single `O` (then `l`) — such a run may be a
lone, digit-free `O` or `l`, while any run containing another non-digit
character (an ordinary word) is left unchanged. -/
theorem clean_cell_rewrite_characterization (cell : List Char) :
    ((joinTokens cell).any Char.isDigit = false → cleanCellText cell = joinTokens cell) ∧
    ((joinTokens cell).any Char.isDigit = true →
      cleanCellText cell =
        runMapSub ('l') ('1') (runMapSub ('O') ('0') (joinTokens cell))) := by
  constructor
  · intro h
    simp [cleanCellText, h]
  · intro h
    simp only [cleanCellText, h, if_true]
    have hO : subDigitWord ('O') ('0') false (joinTokens cell) =
        runMapSub ('O') ('0') (joinTokens cell) :=
      scan_eq_runMap ('O') ('0') (by decide) (by decide) (joinTokens cell).length
        (joinTokens cell) le_rfl (joinTokens cell).length le_rfl
    have hL : subDigitWord ('l') ('1') false (runMapSub ('O') ('0') (joinTokens cell)) =
        runMapSub ('l') ('1') (runMapSub ('O') ('0') (joinTokens cell)) :=
      scan_eq_runMap ('l') ('1') (by decide) (by decide)
        (runMapSub ('O') ('0') (joinTokens cell)).length
        (runMapSub ('O') ('0') (joinTokens cell)) le_rfl
        (runMapSub ('O') ('0') (joinTokens cell)).length le_rfl
    rw [hO, hL]

/-- C8 (witness): a digit-bearing cell where the lone `O` is rewritten per the
run characterization, and a digit-free cell left unchanged. -/
theorem clean_cell_rewrite_witness :
    cleanCellText (("NO 5 O").toList) =
      runMapSub ('l') ('1') (runMapSub ('O') ('0') (joinTokens (("NO 5 O").toList))) ∧
    cleanCellText (("ab cd").toList) = joinTokens (("ab cd").toList) :=
  ⟨(clean_cell_rewrite_characterization (("NO 5 O").toList)).2 (by decide),
   (clean_cell_rewrite_characterization (("ab cd").toList)).1 (by decide)⟩
